import Mathlib

/-
Verification of the AST-driven test-package generator (generate_test_units.py).
Python strings are embedded as `List Char`; the filesystem is embedded as an
explicit state.  All definitions are translated from the source file
src/generate_test_units.py; line references in comments point there.
-/

set_option maxRecDepth 40000

namespace UnitTestGen

/-- Python strings are sequences of characters. -/
abbrev PyStr := List Char

/-- The whitespace characters of Python (`str.isspace`, the `\s` regex class) for
the ASCII range of C sources. -/
def spaceChar (c : Char) : Bool :=
  c = ' ' || c = '\t' || c = '\n' || c = '\r' || c = '\x0b' || c = '\x0c'

/-- Python string comparison: lexicographic by code point. -/
def strLE : PyStr → PyStr → Bool
  | [], _ => true
  | _ :: _, [] => false
  | a :: as, b :: bs => if a < b then true else if b < a then false else strLE as bs

/-- Ordered insertion used to model the stable `sorted` of Python. -/
def insertLE (x : PyStr) : List PyStr → List PyStr
  | [] => [x]
  | y :: ys => if strLE x y then x :: y :: ys else y :: insertLE x ys

/-- Model of Python `sorted` on a list of strings (stable, lexicographic). -/
def pySorted : List PyStr → List PyStr
  | [] => []
  | x :: xs => insertLE x (pySorted xs)

/-- Split a string at every occurrence of a separator character, keeping empty
segments, as Python `str.split(sep)` does. -/
def splitOnChar (sep : Char) : PyStr → List PyStr
  | [] => [[]]
  | c :: rest =>
    if c = sep then [] :: splitOnChar sep rest
    else
      match splitOnChar sep rest with
      | [] => [[c]]
      | l :: ls => (c :: l) :: ls

/-- Python `str.strip()`: drop whitespace from both ends. -/
def pyStrip (s : PyStr) : PyStr :=
  ((s.dropWhile spaceChar).reverse.dropWhile spaceChar).reverse

/-- Join a list of lines with newline separators: Python `"\n".join(lines)`. -/
def joinNL : List PyStr → PyStr
  | [] => []
  | [l] => l
  | l :: ls => l ++ '\n' :: joinNL ls

/- ---------------------- Discovery (source lines 21-40) ---------------------- -/

/-- Abstract filesystem for the read-only scan: the existing directories and
the existing regular files, each as an absolute path string. -/
structure FSModel where
  dirs : List PyStr
  files : List PyStr
deriving DecidableEq

/-- Source line 21: a path is inside a generated test package when any of its
components starts with `TEST_` (Python `p.parts`, `str.startswith`). -/
def _is_in_test_dir (p : PyStr) : Bool :=
  (splitOnChar '/' p).any (fun part => List.isPrefixOf "TEST_".toList part)

/-- `p` lies strictly under the directory `r`. -/
def underRoot (r p : PyStr) : Bool := List.isPrefixOf (r ++ ['/']) p

/-- `r.rglob(pattern)` restricted to regular files with the given suffix,
combined with the `_is_in_test_dir` filter of lines 31 and 39. -/
def rglobFiles (fs : FSModel) (r : PyStr) (ext : PyStr) : List PyStr :=
  fs.files.filter (fun p => underRoot r p && List.isSuffixOf ext p && !(_is_in_test_dir p))

/-- Source lines 27-32: collect `*.h` files under the roots that exist, then
sort the union. -/
def list_headers (fs : FSModel) (roots : List PyStr) : List PyStr :=
  pySorted (roots.flatMap (fun r =>
    if fs.dirs.contains r then rglobFiles fs r ".h".toList else []))

/-- Source lines 35-40: collect `*.c` files under the roots that exist, then
sort the union. -/
def list_c_files (fs : FSModel) (roots : List PyStr) : List PyStr :=
  pySorted (roots.flatMap (fun r =>
    if fs.dirs.contains r then rglobFiles fs r ".c".toList else []))

/- ------------- remove_function_proto_from_header (lines 127-134) -------------
The Python code substitutes the regex
  (^|\n)\s*([A-Za-z_][\w\s\*\(\),\[\]:]+?\s+)?NAME\s*\([^;{]*\)\s*;\s*(?=\n|$)
with the first group.  The matcher below implements exactly the backtracking
semantics of this pattern, continuation style, with the leftmost scan of
Python `re.sub`. -/

/-- `\w` for the ASCII range. -/
def wordChar (c : Char) : Bool := c.isAlpha || c.isDigit || c = '_'

/-- `[A-Za-z_]`, the first character of the optional return-type prefix. -/
def headChar (c : Char) : Bool := c.isAlpha || c = '_'

/-- `[\w\s\*\(\),\[\]:]`, the body of the optional return-type prefix. -/
def protoMidChar (c : Char) : Bool :=
  wordChar c || spaceChar c || c = '*' || c = '(' || c = ')' || c = ',' ||
    c = '[' || c = ']' || c = ':'

/-- `[^;{]`, the characters allowed inside the parameter parentheses. -/
def argChar (c : Char) : Bool := !(c = ';' || c = '\x7b')

/-- Ordered choice of two match attempts: the first success wins, as in a
backtracking regex engine. -/
def orElseO (a b : Option PyStr) : Option PyStr :=
  match a with
  | some v => some v
  | none => b

/-- Greedy star over a character class, with backtracking into the
continuation `k` (longest match tried first). -/
def starGreedy (p : Char → Bool) (k : PyStr → Option PyStr) : PyStr → Option PyStr
  | [] => k []
  | c :: rest =>
    if p c then orElseO (starGreedy p k rest) (k (c :: rest))
    else k (c :: rest)

/-- Backtracking tail of a lazy repetition: try the continuation first, then
consume one more class character. -/
def lazyRest (p : Char → Bool) (k : PyStr → Option PyStr) : PyStr → Option PyStr
  | [] => k []
  | c :: rest => orElseO (k (c :: rest)) (if p c then lazyRest p k rest else none)

/-- Lazy plus over a character class (shortest match tried first). -/
def plusLazy (p : Char → Bool) (k : PyStr → Option PyStr) : PyStr → Option PyStr
  | [] => none
  | c :: rest => if p c then lazyRest p k rest else none

/-- The lookahead `(?=\n|$)`: succeed without consuming. -/
def lookaheadEnd : PyStr → Option PyStr
  | [] => some []
  | c :: rest => if c = '\n' then some (c :: rest) else none

/-- After the closing parenthesis has been consumed: `\s*;\s*(?=\n|$)`. -/
def semiTail : PyStr → Option PyStr
  | ';' :: s6 => starGreedy spaceChar lookaheadEnd s6
  | _ => none

/-- The literal `\)` followed by `semiTail`. -/
def parenClose : PyStr → Option PyStr
  | ')' :: s4 => starGreedy spaceChar semiTail s4
  | _ => none

/-- After the opening parenthesis: `[^;{]*\)\s*;\s*(?=\n|$)`.  Returns the
suffix that follows the match (the lookahead consumes nothing). -/
def protoAfterParen (s : PyStr) : Option PyStr :=
  starGreedy argChar parenClose s

/-- The literal `\(` followed by the parameter tail. -/
def parenOpen : PyStr → Option PyStr
  | '(' :: s2 => protoAfterParen s2
  | _ => none

/-- The literal function name followed by `\s*\(` and the parameter tail. -/
def nameTail (nm : PyStr) (s : PyStr) : Option PyStr :=
  if List.isPrefixOf nm s then starGreedy spaceChar parenOpen (s.drop nm.length)
  else none

/-- `\s+` then the name: the mandatory whitespace ending the optional
return-type prefix. -/
def afterMid (nm : PyStr) : PyStr → Option PyStr
  | [] => none
  | c :: rest => if spaceChar c then starGreedy spaceChar (nameTail nm) rest else none

/-- The optional group `([A-Za-z_][\w\s\*\(\),\[\]:]+?\s+)` followed by the
name and parameter tail. -/
def withMid (nm : PyStr) : PyStr → Option PyStr
  | [] => none
  | c :: rest => if headChar c then plusLazy protoMidChar (afterMid nm) rest else none

/-- Everything after the group-1 anchor and the leading `\s*` has two
alternatives: with the optional prefix group (tried first, it is greedy) or
without it. -/
def matchCore (nm : PyStr) (s : PyStr) : Option PyStr :=
  orElseO (withMid nm s) (nameTail nm s)

/-- `\s*` after the anchor, then the core. -/
def matchAfterAnchor (nm : PyStr) (s : PyStr) : Option PyStr :=
  starGreedy spaceChar (matchCore nm) s

/-- One match attempt at the current position.  Group 1 is `^` (only at the
very start of the string) or a literal newline; on success the pair holds the
text of group 1 and the suffix after the whole match. -/
def tryMatch (nm : PyStr) (s : PyStr) (atStart : Bool) : Option (PyStr × PyStr) :=
  let nlCase : Option (PyStr × PyStr) :=
    match s with
    | '\n' :: rest => (matchAfterAnchor nm rest).map (fun r => (['\n'], r))
    | _ => none
  if atStart then
    match matchAfterAnchor nm s with
    | some r => some (([] : PyStr), r)
    | none => nlCase
  else nlCase

/-- Python `re.sub` scan: try a match at each position from left to right;
on success emit the replacement `\1` and continue after the match.  Every
step consumes at least one character, so `length + 1` units of fuel suffice. -/
def subAux (nm : PyStr) : Nat → PyStr → Bool → PyStr
  | 0, s, _ => s
  | fuel + 1, s, atStart =>
    match tryMatch nm s atStart with
    | some (g1, rest) => g1 ++ subAux nm fuel rest false
    | none =>
      match s with
      | [] => []
      | c :: cs => c :: subAux nm fuel cs false

/-- Source lines 127-134 on character lists. -/
def removeProtoL (text nm : PyStr) : PyStr :=
  subAux nm (text.length + 1) text true

/-- Source lines 127-134: remove the prototype of the isolated function
from the text of a header. -/
def remove_function_proto_from_header (text func_name : String) : String :=
  String.mk (removeProtoL text.toList func_name.toList)

/- ------------- Variable classification and accessor synthesis -------------
A `VarInfo` records what the clang cursor of one translation-unit-scope
variable answers to the queries used by the generator: `v.spelling`,
`t.spelling`, `is_array_type(t)`, `array_elem_type_spelling(t)`,
`array_count_or_none(t)`, `is_const_qualified(t)`, and the source extent text of the declaration.  The `usr` field is the key computed on lines 77 and 110
(`get_usr()` with the spelling-location fallback). -/

structure VarInfo where
  usr : PyStr
  spelling : PyStr
  tySpelling : PyStr
  isArrayTy : Bool
  elemTy : PyStr
  elemCount : Option Nat
  constQual : Bool
  declText : PyStr
deriving DecidableEq

/-- Source lines 235-239: `need_stddef` is set when some used static is an
array. -/
def need_stddef (svs : List VarInfo) : Bool := svs.any (fun v => v.isArrayTy)

/-- Source lines 235-241: `need_string` is set when some used static is a
mutable array of known element count. -/
def need_string (svs : List VarInfo) : Bool :=
  svs.any (fun v => v.isArrayTy && !v.constQual && v.elemCount.isSome)

/-- Source lines 270-286: the accessor prototypes declared in the generated
header for one used static variable. -/
def headerAccessorLines (v : VarInfo) : List PyStr :=
  if v.isArrayTy then
    [(if v.constQual then "const ".toList else []) ++ v.elemTy ++ "* get_".toList
        ++ v.spelling ++ "_ptr(void);".toList,
      "size_t get_".toList ++ v.spelling ++ "_size(void);".toList]
    ++ (if !v.constQual && v.elemCount.isSome then
          ["void set_".toList ++ v.spelling ++ "(const ".toList ++ v.elemTy
            ++ "* src, size_t n);".toList]
        else [])
  else
    [v.tySpelling ++ " get_".toList ++ v.spelling ++ "(void);".toList]
    ++ (if !v.constQual then
          ["void set_".toList ++ v.spelling ++ "(".toList ++ v.tySpelling
            ++ " val);".toList]
        else [])

/-- Source lines 341-346: the synthesized setter body for a mutable array of
known count, copying `min(n, count)` elements. -/
def setterText (v : VarInfo) (c : Nat) : PyStr :=
  "void set_".toList ++ v.spelling ++ "(const ".toList ++ v.elemTy
    ++ "* src, size_t n) \x7b\n    size_t m = (n < (size_t)".toList
    ++ (Nat.repr c).toList ++ ") ? n : (size_t)".toList ++ (Nat.repr c).toList
    ++ ";\n    memcpy(".toList ++ v.spelling ++ ", src, m * sizeof(".toList
    ++ v.elemTy ++ "));\n\x7d".toList

/-- Source lines 325-352: the accessor definitions emitted into the generated
implementation file for one used static variable.  The unknown-count size
query reproduces line 338 of the source verbatim: that string literal has no
`f` prefix in the Python code, so the emitted text contains the characters
`\x7bvname\x7d` instead of the variable name. -/
def implAccessorLines (v : VarInfo) : List PyStr :=
  if v.isArrayTy then
    [(if v.constQual then "const ".toList else []) ++ v.elemTy ++ "* get_".toList
        ++ v.spelling ++ "_ptr(void) \x7b return ".toList ++ v.spelling ++ "; \x7d".toList]
    ++ (match v.elemCount with
        | some c =>
          ["size_t get_".toList ++ v.spelling ++ "_size(void) \x7b return (size_t)".toList
            ++ (Nat.repr c).toList ++ "; \x7d".toList]
        | none => ["size_t get_\x7bvname\x7d_size(void) \x7b return 0; \x7d".toList])
    ++ (match v.elemCount with
        | some c => if !v.constQual then [setterText v c] else []
        | none => [])
  else
    [v.tySpelling ++ " get_".toList ++ v.spelling ++ "(void) \x7b return ".toList
        ++ v.spelling ++ "; \x7d".toList]
    ++ (if !v.constQual then
          ["void set_".toList ++ v.spelling ++ "(".toList ++ v.tySpelling
            ++ " val) \x7b ".toList ++ v.spelling ++ " = val; \x7d".toList]
        else [])

/-- Source lines 305-308 and 317-319: a copied declaration is the stripped
extent text, given a terminating `;` when it lacks one. -/
def normDecl (s : PyStr) : PyStr :=
  let t := pyStrip s
  if List.isSuffixOf [';'] t then t else t ++ [';']

/-- Python `str.upper()` for the ASCII identifiers used in include guards. -/
def pyUpper (s : PyStr) : PyStr := s.map Char.toUpper

/-- One discovered header: its path and its current text. -/
structure HeaderFile where
  hpath : PyStr
  content : PyStr
deriving DecidableEq

/-- Python `Path.name`: the final path component. -/
def hname (h : HeaderFile) : PyStr := (splitOnChar '/' h.hpath).getLastD []

/-- Source line 251: the unconditional include emitted for one discovered
header. -/
def includeLine (n : PyStr) : PyStr := "#include \"".toList ++ n ++ "\"".toList

/-- Source lines 244-289: the lines of the generated header `src/<fn>.h`.
`svs` is the list of used statics already resolved in sorted-key order. -/
def genHeaderLines (fnName proto : PyStr) (headersAll : List HeaderFile)
    (svs : List VarInfo) : List PyStr :=
  ["#ifndef TEST_".toList ++ pyUpper fnName ++ "_H".toList,
    "#define TEST_".toList ++ pyUpper fnName ++ "_H".toList,
    []]
  ++ headersAll.map (fun h => includeLine (hname h))
  ++ [[]]
  ++ (if need_stddef svs then ["#include <stddef.h>".toList] else [])
  ++ (if need_string svs then ["#include <string.h>".toList] else [])
  ++ (if need_stddef svs || need_string svs then [[]] else [])
  ++ [proto]
  ++ svs.flatMap headerAccessorLines
  ++ [[], "#endif /* TEST_".toList ++ pyUpper fnName ++ "_H */\n".toList]

/-- Source line 291: the text written to `src/<fn>.h`. -/
def genHeader (fnName proto : PyStr) (headersAll : List HeaderFile)
    (svs : List VarInfo) : PyStr :=
  joinNL (genHeaderLines fnName proto headersAll svs)

/-- Source lines 294-354: everything of the generated implementation file
before the delimiting marker. -/
def implFront (fnName : PyStr) (gvs svs : List VarInfo) : List PyStr :=
  ["#include \"".toList ++ fnName ++ ".h\"".toList,
    "#include <stddef.h>".toList,
    "#include <string.h>".toList,
    []]
  ++ (if gvs.isEmpty then [] else
      ["/* globals used (real definitions) */".toList]
      ++ gvs.map (fun v => normDecl v.declText)
      ++ [[]])
  ++ (if svs.isEmpty then [] else
      ["/* static globals (copied) */".toList]
      ++ svs.flatMap (fun v => normDecl v.declText :: implAccessorLines v)
      ++ [[]])

/-- The delimiting marker line of source line 356. -/
def markerLine : PyStr := "/* FUNCTION TO TEST */".toList

/-- Source lines 294-357: the lines of the generated implementation file
`src/<fn>.c`.  `gvs` and `svs` are the used globals and used statics resolved
in sorted-key order. -/
def genImplLines (fnName fnText : PyStr) (gvs svs : List VarInfo) : List PyStr :=
  implFront fnName gvs svs ++ [markerLine, fnText]

/-- Source line 359: the text written to `src/<fn>.c`. -/
def genImpl (fnName fnText : PyStr) (gvs svs : List VarInfo) : PyStr :=
  joinNL (genImplLines fnName fnText gvs svs)

/-- Source lines 368-387: the lines of the stub test file `test/test_<fn>.c`. -/
def genTestLines (fnName : PyStr) (headersAll : List HeaderFile) : List PyStr :=
  ["#include <".toList ++ fnName ++ ".h>".toList,
    "#include \"unity.h\"".toList,
    []]
  ++ headersAll.map (fun h => "#include \"mock_".toList ++ hname h ++ "\"".toList)
  ++ [[],
    "void setUp(void) \x7b\x7d".toList,
    "void tearDown(void) \x7b\x7d".toList,
    [],
    "void test_".toList ++ fnName ++ "(void)".toList,
    "\x7b".toList,
    "    TEST_IGNORE_MESSAGE(\"Auto-generated stub test\");".toList,
    "\x7d".toList,
    []]

/-- Source line 389: the text written to `test/test_<fn>.c`. -/
def genTest (fnName : PyStr) (headersAll : List HeaderFile) : PyStr :=
  joinNL (genTestLines fnName headersAll)

/- ---------------------- analyze_function (lines 91-124) ----------------------
The clang cursor tree is embedded first-child/next-sibling: a `CForest` is a
sequence of sibling nodes, each carrying its kind, its `referenced` cursor
(when any) and its children. -/

/-- What the `referenced` cursor of a node answers to the queries of
`classify_var` and of the call-target test on line 103. -/
structure RefDecl where
  isVar : Bool
  atTU : Bool
  staticStorage : Bool
  funcDecl : Bool
  rspell : PyStr
  rusr : PyStr
deriving DecidableEq

/-- The cursor kinds the walk distinguishes. -/
inductive NodeKind where
  | callExpr
  | declRefExpr
  | compoundStmt
  | otherKind
deriving DecidableEq

/-- First-child/next-sibling encoding of a cursor forest. -/
inductive CForest where
  | nil : CForest
  | node : NodeKind → Option RefDecl → CForest → CForest → CForest
deriving DecidableEq

/-- The three accumulating sets of `analyze_function`.  Python `set` is
modelled by insertion-deduplicated lists. -/
structure AState where
  calls : List PyStr
  usedGlobals : List PyStr
  usedStatics : List PyStr
deriving DecidableEq

/-- `s.add(x)` of a Python set on the deduplicated-list model. -/
def addOnce (x : PyStr) (l : List PyStr) : List PyStr :=
  if l.contains x then l else l ++ [x]

/-- Source lines 82-88: `classify_var` returns (is at file scope, is static). -/
def classify_var (r : RefDecl) : Bool × Bool :=
  if r.isVar && r.atTU then (true, r.staticStorage) else (false, false)

/-- Source lines 99-102: the first child with a non-null `referenced` cursor. -/
def firstRef : CForest → Option RefDecl
  | .nil => none
  | .node _ r _ sib =>
    match r with
    | some t => some t
    | none => firstRef sib

/-- Whether the key is present in `tu_globals` (line 111). -/
def tgHas (tg : List VarInfo) (u : PyStr) : Bool := tg.any (fun v => v.usr = u)

/-- Source lines 97-104: the call-expression check of `walk`. -/
def callStep (st : AState) (k : NodeKind) (children : CForest) : AState :=
  if k = NodeKind.callExpr then
    match firstRef children with
    | some t =>
      if t.funcDecl && !t.rspell.isEmpty then
        { st with calls := addOnce t.rspell st.calls }
      else st
    | none => st
  else st

/-- Source lines 106-115: the variable-reference check of `walk`. -/
def refStep (tg : List VarInfo) (st : AState) (k : NodeKind) (r : Option RefDecl) : AState :=
  if k = NodeKind.declRefExpr then
    match r with
    | some ref =>
      if (classify_var ref).1 then
        if tgHas tg ref.rusr then
          if (classify_var ref).2 then
            { st with usedStatics := addOnce ref.rusr st.usedStatics }
          else { st with usedGlobals := addOnce ref.rusr st.usedGlobals }
        else st
      else st
    | none => st
  else st

/-- Source lines 97-115: the checks `walk` performs on one node before
recursing into its children. -/
def nodeStep (tg : List VarInfo) (st : AState) (k : NodeKind) (r : Option RefDecl)
    (children : CForest) : AState :=
  refStep tg (callStep st k children) k r

/-- Source lines 96-118: `walk` over a forest, node checks first, then the
children, then the following siblings. -/
def walkF (tg : List VarInfo) (st : AState) : CForest → AState
  | .nil => st
  | .node k r ch sib => walkF tg (walkF tg (nodeStep tg st k r ch) ch) sib

/-- Source lines 120-122: walk each child of the function that is a compound
statement. -/
def analyzeChildren (tg : List VarInfo) (st : AState) : CForest → AState
  | .nil => st
  | .node k r ch sib =>
    analyzeChildren tg
      (if k = NodeKind.compoundStmt then walkF tg st (.node k r ch .nil) else st) sib

/-- Source lines 91-124: `analyze_function` on the child forest of the function cursor, starting from three empty sets. -/
def analyze_function (tg : List VarInfo) (fnChildren : CForest) : AState :=
  analyzeChildren tg ⟨[], [], []⟩ fnChildren

/- ---------------------- Test Package Assembler (lines 195-391) ---------------------- -/

/-- The analyzed inputs the assembler consumes for one function `F`. -/
structure FnInput where
  fnName : PyStr
  proto : PyStr
  fnText : PyStr
  tuGlobals : List VarInfo
  usedGlobUsr : List PyStr
  usedStatUsr : List PyStr
  headersAll : List HeaderFile
deriving DecidableEq

/-- `tu_globals[usr]` (the dictionary lookup of lines 236, 264, 304, 314). -/
def lookupUsr (tg : List VarInfo) (u : PyStr) : Option VarInfo :=
  tg.find? (fun v => v.usr = u)

/-- The used statics in the emission order of lines 263 and 313:
`sorted(used_stat_usr)` resolved through `tu_globals`. -/
def resolvedStatics (inp : FnInput) : List VarInfo :=
  (pySorted inp.usedStatUsr).filterMap (lookupUsr inp.tuGlobals)

/-- The used globals in the emission order of line 303. -/
def resolvedGlobals (inp : FnInput) : List VarInfo :=
  (pySorted inp.usedGlobUsr).filterMap (lookupUsr inp.tuGlobals)

/-- On-disk state of one package `TEST_<F>`: whether the package directory
exists, and the files of `src/` and of `test/` (`none` when the directory
itself is absent). -/
structure PkgState where
  pkgDirOnDisk : Bool
  srcFiles : Option (List (PyStr × PyStr))
  testFiles : Option (List (PyStr × PyStr))
deriving DecidableEq

/-- The per-function outcome reported on lines 218 and 391. -/
inductive Outcome where
  | skipped
  | generated
deriving DecidableEq

/-- `write_text`: create or overwrite the file of the given name. -/
def writeFile (dir : List (PyStr × PyStr)) (n c : PyStr) : List (PyStr × PyStr) :=
  if dir.any (fun e => e.1 = n) then
    dir.map (fun e => if e.1 = n then (n, c) else e)
  else dir ++ [(n, c)]

/-- Source lines 291, 359, 361-364: the writes that populate `src/`, in
program order — the generated header, the generated implementation, then one
cleaned copy per discovered header keyed by its basename. -/
def srcGenFiles (inp : FnInput) (files0 : List (PyStr × PyStr)) : List (PyStr × PyStr) :=
  let svs := resolvedStatics inp
  let gvs := resolvedGlobals inp
  let f1 := writeFile files0 (inp.fnName ++ ".h".toList)
    (genHeader inp.fnName inp.proto inp.headersAll svs)
  let f2 := writeFile f1 (inp.fnName ++ ".c".toList)
    (genImpl inp.fnName inp.fnText gvs svs)
  inp.headersAll.foldl
    (fun acc h => writeFile acc (hname h) (removeProtoL h.content inp.fnName)) f2

/-- Source lines 212-391: the three-case per-function policy of `main`.
Skip when `src/` exists non-empty; otherwise create `test/` only when the
package directory did not exist, regenerate `src/` fully, and write the stub
test only when the package directory did not exist. -/
def processStep (inp : FnInput) (st : PkgState) : PkgState × Outcome :=
  let test_exists := st.pkgDirOnDisk
  let src_exists := st.srcFiles.isSome
  let src_empty := !src_exists || (st.srcFiles.getD []).isEmpty
  if src_exists && !src_empty then (st, Outcome.skipped)
  else
    let testFiles1 := if !test_exists then some (st.testFiles.getD []) else st.testFiles
    let srcFiles1 := srcGenFiles inp (st.srcFiles.getD [])
    let testFiles2 :=
      if !test_exists then
        some (writeFile (testFiles1.getD [])
          ("test_".toList ++ inp.fnName ++ ".c".toList)
          (genTest inp.fnName inp.headersAll))
      else testFiles1
    ({ pkgDirOnDisk := true, srcFiles := some srcFiles1, testFiles := testFiles2 },
      Outcome.generated)

/- ---------------------- Concrete evaluation inputs ----------------------
Small concrete values used to evaluate the theorems below on closed
instances. -/

/-- A used static: mutable `int` array of known count 8. -/
def wiBuf : VarInfo :=
  ⟨"c:lib.c@buf".toList, "buf".toList, "int[8]".toList, true, "int".toList,
    some 8, false, "static int buf[8] = \x7b1, 2\x7d".toList⟩

/-- A used static: const `char` array of known count 3. -/
def wiCarr : VarInfo :=
  ⟨"c:lib.c@carr".toList, "carr".toList, "const char[3]".toList, true,
    "char".toList, some 3, true, "static const char carr[3] = \"ab\";".toList⟩

/-- A used static: mutable scalar. -/
def wiCount : VarInfo :=
  ⟨"c:lib.c@count".toList, "count".toList, "int".toList, false, [],
    none, false, "  static int count = 4;  ".toList⟩

/-- A used static: const scalar. -/
def wiRo : VarInfo :=
  ⟨"c:lib.c@ro".toList, "ro".toList, "const double".toList, false, [],
    none, true, "static const double ro = 1.5;".toList⟩

/-- A used static: mutable array of unknown element count (an incomplete
array such as `static int mystery[];`). -/
def vMystery : VarInfo :=
  ⟨"c:lib.c@mystery".toList, "mystery".toList, "int[]".toList, true,
    "int".toList, none, false, "static int mystery[]".toList⟩

/-- A used global (external linkage). -/
def wiG : VarInfo :=
  ⟨"c:@g".toList, "g".toList, "int".toList, false, [], none, false,
    "int g = 2".toList⟩

/-- A discovered header under the first scan root. -/
def wiHeaderA : HeaderFile := ⟨"/pltf/alpha.h".toList, "int util(void);\nint f(int a);\n".toList⟩

/-- A discovered header with the same basename in another directory. -/
def wiHeaderB : HeaderFile := ⟨"/pltf/sub/alpha.h".toList, "char other(void);\n".toList⟩

/-- The assembler input of one concrete function. -/
def wiInp : FnInput :=
  ⟨"f".toList, "int f(int a);".toList,
    "int f(int a) \x7b\n    return a + g + count;\n\x7d".toList,
    [wiBuf, wiCount, wiG],
    ["c:@g".toList],
    ["c:lib.c@count".toList, "c:lib.c@buf".toList],
    [wiHeaderA, wiHeaderB]⟩

/-- Referenced declaration: the static variable `a`. -/
def wiRefA : RefDecl := ⟨true, true, true, false, "a".toList, "c:m.c@a".toList⟩

/-- Referenced declaration: the global variable `b`. -/
def wiRefB : RefDecl := ⟨true, true, false, false, "b".toList, "c:@b".toList⟩

/-- Referenced declaration: a called function. -/
def wiRefCall : RefDecl := ⟨false, false, false, true, "helper".toList, "c:@helper".toList⟩

/-- Translation-unit globals of the concrete analyzer example. -/
def wiTg : List VarInfo :=
  [⟨"c:m.c@a".toList, "a".toList, "int".toList, false, [], none, false, "static int a;".toList⟩,
    ⟨"c:@b".toList, "b".toList, "int".toList, false, [], none, false, "int b;".toList⟩]

/-- A function body forest that references `a` twice, calls `helper` twice,
and references `b` once. -/
def wiForest : CForest :=
  .node .compoundStmt none
    (.node .declRefExpr (some wiRefA) .nil
      (.node .callExpr none (.node .otherKind (some wiRefCall) .nil .nil)
        (.node .declRefExpr (some wiRefA) .nil
          (.node .callExpr none (.node .otherKind (some wiRefCall) .nil .nil)
            (.node .declRefExpr (some wiRefB) .nil .nil)))))
    .nil

/-- A scan filesystem holding a hand-written file whose name starts with
`TEST_`. -/
def wiFs : FSModel :=
  ⟨["/pltf".toList, "/cfg".toList],
    ["/pltf/alpha.h".toList, "/pltf/lib.c".toList, "/pltf/TEST_notes.c".toList,
      "/cfg/TEST_f/src/f.h".toList]⟩

/- ======================= Theorems ======================= -/

/- Order lemmas for the model of Python string sorting. -/

theorem strLE_refl (a : PyStr) : strLE a a = true := by
  induction a with
  | nil => rfl
  | cons c cs ih => simp [strLE, ih]

theorem strLE_total (a b : PyStr) : strLE a b = true ∨ strLE b a = true := by
  induction a generalizing b with
  | nil => left; rfl
  | cons x as ih =>
    cases b with
    | nil => right; rfl
    | cons y bs =>
      rcases lt_trichotomy x y with h | h | h
      · left; simp [strLE, h]
      · subst h
        rcases ih bs with h' | h'
        · left; simp [strLE, h', lt_irrefl]
        · right; simp [strLE, h', lt_irrefl]
      · right; simp [strLE, h]

theorem strLE_trans {a b c : PyStr} (h1 : strLE a b = true) (h2 : strLE b c = true) :
    strLE a c = true := by
  induction a generalizing b c with
  | nil => rfl
  | cons x as ih =>
    cases b with
    | nil => simp [strLE] at h1
    | cons y bs =>
      cases c with
      | nil => simp [strLE] at h2
      | cons z cs =>
        simp only [strLE] at h1 h2 ⊢
        rcases lt_trichotomy x y with hxy | hxy | hxy
        · rcases lt_trichotomy y z with hyz | hyz | hyz
          · simp [lt_trans hxy hyz]
          · subst hyz; simp [hxy]
          · simp [hyz, not_lt_of_gt hyz] at h2
        · subst hxy
          simp only [lt_irrefl, if_false] at h1
          rcases lt_trichotomy x z with hyz | hyz | hyz
          · simp [hyz]
          · subst hyz
            simp only [lt_irrefl, if_false] at h2 ⊢
            exact ih h1 h2
          · simp [hyz, not_lt_of_gt hyz] at h2
        · simp [hxy, not_lt_of_gt hxy] at h1

theorem strLE_append_left (p a b : PyStr) : strLE (p ++ a) (p ++ b) = strLE a b := by
  induction p with
  | nil => rfl
  | cons c cs ih => simp [strLE, lt_irrefl, ih]

theorem mem_insertLE {x y : PyStr} {l : List PyStr} :
    y ∈ insertLE x l ↔ y = x ∨ y ∈ l := by
  induction l with
  | nil => simp [insertLE]
  | cons z zs ih =>
    by_cases h : strLE x z = true
    · simp [insertLE, h]
    · simp [insertLE, h, ih]; tauto

theorem pairwise_insertLE {x : PyStr} {l : List PyStr}
    (h : List.Pairwise (fun a b => strLE a b = true) l) :
    List.Pairwise (fun a b => strLE a b = true) (insertLE x l) := by
  induction l with
  | nil => simp [insertLE]
  | cons z zs ih =>
    rcases List.pairwise_cons.mp h with ⟨hz, hzs⟩
    by_cases hxz : strLE x z = true
    · rw [insertLE, if_pos hxz]
      refine List.pairwise_cons.mpr ⟨?_, h⟩
      intro w hw
      rcases List.mem_cons.mp hw with rfl | hw'
      · exact hxz
      · exact strLE_trans hxz (hz w hw')
    · have hzx : strLE z x = true := by
        rcases strLE_total x z with h' | h'
        · exact absurd h' hxz
        · exact h'
      rw [insertLE, if_neg hxz]
      refine List.pairwise_cons.mpr ⟨?_, ih hzs⟩
      intro w hw
      rcases mem_insertLE.mp hw with rfl | hw'
      · exact hzx
      · exact hz w hw'

theorem pySorted_pairwise (l : List PyStr) :
    List.Pairwise (fun a b => strLE a b = true) (pySorted l) := by
  induction l with
  | nil => simp [pySorted]
  | cons x xs ih => exact pairwise_insertLE ih

theorem mem_pySorted {x : PyStr} {l : List PyStr} : x ∈ pySorted l ↔ x ∈ l := by
  induction l with
  | nil => simp [pySorted]
  | cons y ys ih => simp [pySorted, mem_insertLE, ih]

/- Claim C2.  The table of the spec says a mutable array of unknown count gets a
size query `get_<name>_size` returning 0 in both the header and the
implementation.  The header declares `get_<name>_size`, but line 338 of the
source lacks the f-string prefix, so the implementation defines a function
literally named `get_\x7bvname\x7d_size` and contains no definition of
`get_<name>_size` at all: the code contradicts the adjacent f-string lines
and its own header. -/

/-- C2: for the mutable unknown-count array `mystery`, the generated header
declares `get_mystery_ptr` and `get_mystery_size` (and no setter), but the
generated implementation file defines `get_\x7bvname\x7d_size` verbatim and
contains no occurrence of `get_mystery_size`. -/
theorem c2_unknown_count_size_query_bug :
    headerAccessorLines vMystery =
      ["int* get_mystery_ptr(void);".toList, "size_t get_mystery_size(void);".toList]
    ∧ implAccessorLines vMystery =
      ["int* get_mystery_ptr(void) \x7b return mystery; \x7d".toList,
        "size_t get_\x7bvname\x7d_size(void) \x7b return 0; \x7d".toList]
    ∧ ¬ ("set_mystery".toList <:+:
          genImpl "f".toList "int f(void) \x7b return mystery[0]; \x7d".toList [] [vMystery])
    ∧ ¬ ("get_mystery_size".toList <:+:
          genImpl "f".toList "int f(void) \x7b return mystery[0]; \x7d".toList [] [vMystery]) := by
  refine ⟨by decide, by decide, by decide, by decide⟩

/- Claim C3.  The accessor surface synthesized for a used static matches the
classification table of the spec, case by case. -/

/-- C3: classification table for accessors.  A const array gets a
const-qualified getter and a size query and no setter; a mutable array of
known count gets getter, size query, and a setter whose emitted definition
copies `min(n, count)` elements; a const scalar gets only a getter; a
mutable scalar gets getter and setter. -/
theorem c3_accessor_surface_table (v : VarInfo) (c : Nat) :
    (v.isArrayTy = true → v.constQual = true →
      headerAccessorLines v =
        ["const ".toList ++ v.elemTy ++ "* get_".toList ++ v.spelling ++ "_ptr(void);".toList,
          "size_t get_".toList ++ v.spelling ++ "_size(void);".toList])
    ∧ (v.isArrayTy = true → v.constQual = false → v.elemCount = some c →
      headerAccessorLines v =
        [v.elemTy ++ "* get_".toList ++ v.spelling ++ "_ptr(void);".toList,
          "size_t get_".toList ++ v.spelling ++ "_size(void);".toList,
          "void set_".toList ++ v.spelling ++ "(const ".toList ++ v.elemTy
            ++ "* src, size_t n);".toList]
      ∧ implAccessorLines v =
        [v.elemTy ++ "* get_".toList ++ v.spelling ++ "_ptr(void) \x7b return ".toList
            ++ v.spelling ++ "; \x7d".toList,
          "size_t get_".toList ++ v.spelling ++ "_size(void) \x7b return (size_t)".toList
            ++ (Nat.repr c).toList ++ "; \x7d".toList,
          "void set_".toList ++ v.spelling ++ "(const ".toList ++ v.elemTy
            ++ "* src, size_t n) \x7b\n    size_t m = (n < (size_t)".toList
            ++ (Nat.repr c).toList ++ ") ? n : (size_t)".toList ++ (Nat.repr c).toList
            ++ ";\n    memcpy(".toList ++ v.spelling ++ ", src, m * sizeof(".toList
            ++ v.elemTy ++ "));\n\x7d".toList])
    ∧ (v.isArrayTy = false → v.constQual = true →
      headerAccessorLines v = [v.tySpelling ++ " get_".toList ++ v.spelling ++ "(void);".toList])
    ∧ (v.isArrayTy = false → v.constQual = false →
      headerAccessorLines v =
        [v.tySpelling ++ " get_".toList ++ v.spelling ++ "(void);".toList,
          "void set_".toList ++ v.spelling ++ "(".toList ++ v.tySpelling ++ " val);".toList]) := by
  refine ⟨?_, ?_, ?_, ?_⟩
  · intro ha hc
    simp [headerAccessorLines, ha, hc]
  · intro ha hc hcnt
    constructor
    · simp [headerAccessorLines, ha, hc, hcnt]
    · simp [implAccessorLines, ha, hc, hcnt, setterText]
  · intro ha hc
    simp [headerAccessorLines, ha, hc]
  · intro ha hc
    simp [headerAccessorLines, ha, hc]

/-- C3 witness: the table evaluated on the four concrete statics. -/
theorem c3_accessor_surface_table_witness :
    headerAccessorLines wiCarr =
      ["const char* get_carr_ptr(void);".toList, "size_t get_carr_size(void);".toList]
    ∧ headerAccessorLines wiBuf =
      ["int* get_buf_ptr(void);".toList, "size_t get_buf_size(void);".toList,
        "void set_buf(const int* src, size_t n);".toList]
    ∧ implAccessorLines wiBuf =
      ["int* get_buf_ptr(void) \x7b return buf; \x7d".toList,
        "size_t get_buf_size(void) \x7b return (size_t)8; \x7d".toList,
        "void set_buf(const int* src, size_t n) \x7b\n    size_t m = (n < (size_t)8) ? n : (size_t)8;\n    memcpy(buf, src, m * sizeof(int));\n\x7d".toList]
    ∧ headerAccessorLines wiRo = ["const double get_ro(void);".toList]
    ∧ headerAccessorLines wiCount =
      ["int get_count(void);".toList, "void set_count(int val);".toList] := by
  refine ⟨(c3_accessor_surface_table wiCarr 3).1 (by decide) (by decide), ?_, ?_, ?_, ?_⟩
  · exact (((c3_accessor_surface_table wiBuf 8).2.1 (by decide) (by decide) (by decide)).1)
  · exact (((c3_accessor_surface_table wiBuf 8).2.1 (by decide) (by decide) (by decide)).2)
  · exact (c3_accessor_surface_table wiRo 0).2.2.1 (by decide) (by decide)
  · exact (c3_accessor_surface_table wiCount 0).2.2.2 (by decide) (by decide)

/- Assembler lemmas shared by the policy claims. -/

theorem writeFile_ne_nil (d : List (PyStr × PyStr)) (n c : PyStr) :
    writeFile d n c ≠ [] := by
  unfold writeFile
  split
  · intro hmap
    rename_i hany
    rw [List.map_eq_nil_iff] at hmap
    subst hmap
    simp at hany
  · simp

theorem foldl_writeFile_ne_nil {α : Type} (f g : α → PyStr) :
    ∀ (hs : List α) (acc : List (PyStr × PyStr)), acc ≠ [] →
      hs.foldl (fun a h => writeFile a (f h) (g h)) acc ≠ [] := by
  intro hs
  induction hs with
  | nil => intro acc h; exact h
  | cons h hs ih =>
    intro acc hacc
    exact ih _ (writeFile_ne_nil _ _ _)

theorem srcGenFiles_ne_nil (inp : FnInput) (files0 : List (PyStr × PyStr)) :
    srcGenFiles inp files0 ≠ [] := by
  unfold srcGenFiles
  exact foldl_writeFile_ne_nil _ _ _ _ (writeFile_ne_nil _ _ _)

theorem processStep_skip (inp : FnInput) (st : PkgState) (x : PyStr × PyStr)
    (xs : List (PyStr × PyStr)) (h : st.srcFiles = some (x :: xs)) :
    processStep inp st = (st, Outcome.skipped) := by
  simp [processStep, h]

theorem processStep_generated_src (inp : FnInput) (st : PkgState)
    (hs : st.srcFiles = none ∨ st.srcFiles = some []) :
    ((processStep inp st).1).srcFiles = some (srcGenFiles inp []) := by
  rcases hs with hs | hs <;> cases hp : st.pkgDirOnDisk <;> simp [processStep, hs, hp]

/- Claim C1: the three-case on-disk policy and the second-run skip. -/

/-- C1: for each function, exactly one of three transitions happens, decided
by the on-disk state of the package — absent: create and populate `test/` and
`src/`; present with missing or empty `src/`: repopulate `src/` only;
present with non-empty `src/`: no write at all.  Running the step again on
its own output always skips. -/
theorem c1_three_case_policy (inp : FnInput) (st : PkgState) :
    (st.pkgDirOnDisk = false → st.srcFiles = none → st.testFiles = none →
      processStep inp st =
        ({ pkgDirOnDisk := true, srcFiles := some (srcGenFiles inp []),
            testFiles := some [("test_".toList ++ inp.fnName ++ ".c".toList,
              genTest inp.fnName inp.headersAll)] }, Outcome.generated))
    ∧ (st.pkgDirOnDisk = true → (st.srcFiles = none ∨ st.srcFiles = some []) →
      processStep inp st =
        ({ pkgDirOnDisk := true, srcFiles := some (srcGenFiles inp []),
            testFiles := st.testFiles }, Outcome.generated))
    ∧ (∀ x xs, st.srcFiles = some (x :: xs) → processStep inp st = (st, Outcome.skipped))
    ∧ processStep inp (processStep inp st).1 = ((processStep inp st).1, Outcome.skipped) := by
  refine ⟨?_, ?_, ?_, ?_⟩
  · intro hp hs ht
    simp [processStep, hp, hs, ht, writeFile]
  · intro hp hs
    rcases hs with hs | hs <;> simp [processStep, hp, hs]
  · intro x xs h
    exact processStep_skip inp st x xs h
  · rcases hsrc : st.srcFiles with _ | l
    · have h1 := processStep_generated_src inp st (Or.inl hsrc)
      rcases hgen : srcGenFiles inp [] with _ | ⟨x, xs⟩
      · exact absurd hgen (srcGenFiles_ne_nil inp [])
      · exact processStep_skip inp _ x xs (by rw [h1, hgen])
    · cases l with
      | nil =>
        have h1 := processStep_generated_src inp st (Or.inr hsrc)
        rcases hgen : srcGenFiles inp [] with _ | ⟨x, xs⟩
        · exact absurd hgen (srcGenFiles_ne_nil inp [])
        · exact processStep_skip inp _ x xs (by rw [h1, hgen])
      | cons y ys =>
        rw [processStep_skip inp st y ys hsrc]
        exact processStep_skip inp st y ys hsrc

/-- C1 witness: from the absent state, the concrete input generates a fully
populated package, and a second run on the result skips. -/
theorem c1_three_case_policy_witness :
    processStep wiInp ⟨false, none, none⟩ =
      ({ pkgDirOnDisk := true, srcFiles := some (srcGenFiles wiInp []),
          testFiles := some [("test_f.c".toList, genTest "f".toList wiInp.headersAll)] },
        Outcome.generated)
    ∧ processStep wiInp ⟨true, some [], some [("test_f.c".toList, [])]⟩ =
      ({ pkgDirOnDisk := true, srcFiles := some (srcGenFiles wiInp []),
          testFiles := some [("test_f.c".toList, [])] }, Outcome.generated)
    ∧ processStep wiInp ⟨true, some [("f.h".toList, [])], some []⟩ =
      (⟨true, some [("f.h".toList, [])], some []⟩, Outcome.skipped)
    ∧ processStep wiInp (processStep wiInp ⟨false, none, none⟩).1 =
      ((processStep wiInp ⟨false, none, none⟩).1, Outcome.skipped) := by
  refine ⟨?_, ?_, ?_, (c1_three_case_policy wiInp ⟨false, none, none⟩).2.2.2⟩
  · exact (c1_three_case_policy wiInp ⟨false, none, none⟩).1 rfl rfl rfl
  · exact (c1_three_case_policy wiInp ⟨true, some [], some [("test_f.c".toList, [])]⟩).2.1
      rfl (Or.inr rfl)
  · exact (c1_three_case_policy wiInp ⟨true, some [("f.h".toList, [])], some []⟩).2.2.1
      ("f.h".toList, []) [] rfl

/- Claim C4: the `test/` directory is written only at package creation, and
`src/` regeneration is deterministic. -/

/-- C4: when the package directory already exists, `processStep` leaves
`test/` untouched, and regenerating `src/` from a missing or empty `src/`
yields exactly the files a first generation from the same inputs produces. -/
theorem c4_test_write_once_and_src_deterministic (inp : FnInput) (st st' : PkgState) :
    (st.pkgDirOnDisk = true → ((processStep inp st).1).testFiles = st.testFiles)
    ∧ ((st.srcFiles = none ∨ st.srcFiles = some []) →
        (st'.srcFiles = none ∨ st'.srcFiles = some []) →
        ((processStep inp st).1).srcFiles = some (srcGenFiles inp [])
        ∧ ((processStep inp st).1).srcFiles = ((processStep inp st').1).srcFiles) := by
  constructor
  · intro hp
    rcases hsrc : st.srcFiles with _ | l
    · simp [processStep, hp, hsrc]
    · cases l with
      | nil => simp [processStep, hp, hsrc]
      | cons y ys => rw [processStep_skip inp st y ys hsrc]
  · intro hs hs'
    refine ⟨processStep_generated_src inp st hs, ?_⟩
    rw [processStep_generated_src inp st hs, processStep_generated_src inp st' hs']

/-- C4 witness: concrete regeneration after emptying `src/` leaves `test/`
alone and reproduces the `src/` bytes of the first run. -/
theorem c4_test_write_once_and_src_deterministic_witness :
    ((processStep wiInp ⟨true, some [], some [("test_f.c".toList, "kept".toList)]⟩).1).testFiles
      = some [("test_f.c".toList, "kept".toList)]
    ∧ ((processStep wiInp ⟨true, some [], some [("test_f.c".toList, "kept".toList)]⟩).1).srcFiles
      = ((processStep wiInp ⟨false, none, none⟩).1).srcFiles := by
  constructor
  · exact (c4_test_write_once_and_src_deterministic wiInp
      ⟨true, some [], some [("test_f.c".toList, "kept".toList)]⟩ ⟨false, none, none⟩).1 rfl
  · exact ((c4_test_write_once_and_src_deterministic wiInp
      ⟨true, some [], some [("test_f.c".toList, "kept".toList)]⟩ ⟨false, none, none⟩).2
      (Or.inr rfl) (Or.inl rfl)).2

/- Scanner lemmas shared by the discovery claims. -/

theorem mem_scanList (fs : FSModel) (roots : List PyStr) (ext p : PyStr) :
    p ∈ pySorted (roots.flatMap (fun r =>
        if fs.dirs.contains r then rglobFiles fs r ext else [])) ↔
      ∃ r ∈ roots, fs.dirs.contains r = true ∧ p ∈ fs.files ∧
        (underRoot r p && List.isSuffixOf ext p && !(_is_in_test_dir p)) = true := by
  rw [mem_pySorted, List.mem_flatMap]
  constructor
  · rintro ⟨r, hr, hp⟩
    by_cases hc : fs.dirs.contains r = true
    · rw [if_pos hc] at hp
      rcases List.mem_filter.mp hp with ⟨hpf, hpred⟩
      exact ⟨r, hr, hc, hpf, hpred⟩
    · rw [if_neg hc] at hp
      simp at hp
  · rintro ⟨r, hr, hc, hpf, hpred⟩
    refine ⟨r, hr, ?_⟩
    rw [if_pos hc]
    exact List.mem_filter.mpr ⟨hpf, hpred⟩

/- Claim C7: the scanner contract. -/

/-- C7: both scans return path-sorted lists; a path is listed exactly when
some root that exists as a directory contains it, it is a file with the
right extension, and no component marks a generated test package.  A root
that is not an existing directory contributes nothing (the membership
condition requires `fs.dirs.contains r`); the scan reads but never changes
the filesystem value. -/
theorem c7_scanner_contract (fs : FSModel) (roots : List PyStr) :
    List.Pairwise (fun a b => strLE a b = true) (list_headers fs roots)
    ∧ List.Pairwise (fun a b => strLE a b = true) (list_c_files fs roots)
    ∧ (∀ p, p ∈ list_headers fs roots ↔
        ∃ r ∈ roots, fs.dirs.contains r = true ∧ p ∈ fs.files ∧
          (underRoot r p && List.isSuffixOf ".h".toList p && !(_is_in_test_dir p)) = true)
    ∧ (∀ p, p ∈ list_c_files fs roots ↔
        ∃ r ∈ roots, fs.dirs.contains r = true ∧ p ∈ fs.files ∧
          (underRoot r p && List.isSuffixOf ".c".toList p && !(_is_in_test_dir p)) = true) := by
  refine ⟨?_, ?_, ?_, ?_⟩
  · unfold list_headers
    exact pySorted_pairwise _
  · unfold list_c_files
    exact pySorted_pairwise _
  · intro p
    exact mem_scanList fs roots ".h".toList p
  · intro p
    exact mem_scanList fs roots ".c".toList p

/-- C7 witness: the contract evaluated on the concrete scan filesystem. -/
theorem c7_scanner_contract_witness :
    List.Pairwise (fun a b => strLE a b = true)
      (list_headers wiFs ["/pltf".toList, "/cfg".toList])
    ∧ ("/pltf/alpha.h".toList ∈ list_headers wiFs ["/pltf".toList, "/cfg".toList] ↔
        ∃ r ∈ ["/pltf".toList, "/cfg".toList], wiFs.dirs.contains r = true ∧
          "/pltf/alpha.h".toList ∈ wiFs.files ∧
          (underRoot r "/pltf/alpha.h".toList
            && List.isSuffixOf ".h".toList "/pltf/alpha.h".toList
            && !(_is_in_test_dir "/pltf/alpha.h".toList)) = true) :=
  ⟨(c7_scanner_contract wiFs ["/pltf".toList, "/cfg".toList]).1,
    (c7_scanner_contract wiFs ["/pltf".toList, "/cfg".toList]).2.2.1 "/pltf/alpha.h".toList⟩

/- Claim C9: the exclusion test keys on the bare prefix `TEST_` in any path
component, including the file name of a hand-written source file. -/

/-- C9: any path one of whose components starts with `TEST_` is excluded
from both scan results, whatever the rest of the path looks like. -/
theorem c9_test_prefix_excludes (fs : FSModel) (roots : List PyStr) (p : PyStr)
    (h : ∃ part ∈ splitOnChar '/' p, List.isPrefixOf "TEST_".toList part = true) :
    p ∉ list_headers fs roots ∧ p ∉ list_c_files fs roots := by
  have htd : _is_in_test_dir p = true := by
    rw [_is_in_test_dir, List.any_eq_true]
    obtain ⟨part, hm, hp⟩ := h
    exact ⟨part, hm, hp⟩
  constructor
  · intro hmem
    rcases (mem_scanList fs roots ".h".toList p).mp hmem with ⟨r, _, _, _, hpred⟩
    rw [htd] at hpred
    simp at hpred
  · intro hmem
    rcases (mem_scanList fs roots ".c".toList p).mp hmem with ⟨r, _, _, _, hpred⟩
    rw [htd] at hpred
    simp at hpred

/-- C9 witness: the hand-written file `/pltf/TEST_notes.c` under an existing
scan root is excluded from both lists. -/
theorem c9_test_prefix_excludes_witness :
    "/pltf/TEST_notes.c".toList ∉ list_headers wiFs ["/pltf".toList, "/cfg".toList]
    ∧ "/pltf/TEST_notes.c".toList ∉ list_c_files wiFs ["/pltf".toList, "/cfg".toList] :=
  c9_test_prefix_excludes wiFs ["/pltf".toList, "/cfg".toList] "/pltf/TEST_notes.c".toList
    (by decide)

/- Analyzer lemmas shared by the dependency-set claims. -/

theorem addOnce_nodup {x : PyStr} {l : List PyStr} (h : l.Nodup) : (addOnce x l).Nodup := by
  unfold addOnce
  split
  · exact h
  · rename_i hc
    have hx : x ∉ l := by
      intro hmem
      exact hc (by simpa using hmem)
    simp [List.nodup_append, h, hx]

theorem callStep_nodup {st : AState} (k : NodeKind) (ch : CForest)
    (h1 : st.calls.Nodup) (h2 : st.usedGlobals.Nodup) (h3 : st.usedStatics.Nodup) :
    (callStep st k ch).calls.Nodup ∧ (callStep st k ch).usedGlobals.Nodup
      ∧ (callStep st k ch).usedStatics.Nodup := by
  unfold callStep
  split
  · split
    · split
      · exact ⟨addOnce_nodup h1, h2, h3⟩
      · exact ⟨h1, h2, h3⟩
    · exact ⟨h1, h2, h3⟩
  · exact ⟨h1, h2, h3⟩

theorem refStep_nodup (tg : List VarInfo) {st : AState} (k : NodeKind) (r : Option RefDecl)
    (h1 : st.calls.Nodup) (h2 : st.usedGlobals.Nodup) (h3 : st.usedStatics.Nodup) :
    (refStep tg st k r).calls.Nodup ∧ (refStep tg st k r).usedGlobals.Nodup
      ∧ (refStep tg st k r).usedStatics.Nodup := by
  unfold refStep
  split
  · split
    · split
      · split
        · split
          · exact ⟨h1, h2, addOnce_nodup h3⟩
          · exact ⟨h1, addOnce_nodup h2, h3⟩
        · exact ⟨h1, h2, h3⟩
      · exact ⟨h1, h2, h3⟩
    · exact ⟨h1, h2, h3⟩
  · exact ⟨h1, h2, h3⟩

theorem walkF_nodup (tg : List VarInfo) (f : CForest) :
    ∀ st : AState, st.calls.Nodup → st.usedGlobals.Nodup → st.usedStatics.Nodup →
      (walkF tg st f).calls.Nodup ∧ (walkF tg st f).usedGlobals.Nodup
        ∧ (walkF tg st f).usedStatics.Nodup := by
  induction f with
  | nil => intro st h1 h2 h3; exact ⟨h1, h2, h3⟩
  | node k r ch sib ihch ihsib =>
    intro st h1 h2 h3
    have hstep := refStep_nodup tg k r (callStep_nodup k ch h1 h2 h3).1
      (callStep_nodup k ch h1 h2 h3).2.1 (callStep_nodup k ch h1 h2 h3).2.2
    have hch := ihch (nodeStep tg st k r ch) hstep.1 hstep.2.1 hstep.2.2
    exact ihsib _ hch.1 hch.2.1 hch.2.2

theorem analyzeChildren_nodup (tg : List VarInfo) (f : CForest) :
    ∀ st : AState, st.calls.Nodup → st.usedGlobals.Nodup → st.usedStatics.Nodup →
      (analyzeChildren tg st f).calls.Nodup ∧ (analyzeChildren tg st f).usedGlobals.Nodup
        ∧ (analyzeChildren tg st f).usedStatics.Nodup := by
  induction f with
  | nil => intro st h1 h2 h3; exact ⟨h1, h2, h3⟩
  | node k r ch sib ihch ihsib =>
    intro st h1 h2 h3
    by_cases hk : k = NodeKind.compoundStmt
    · have hw := walkF_nodup tg (.node k r ch .nil) st h1 h2 h3
      have := ihsib (walkF tg st (.node k r ch .nil)) hw.1 hw.2.1 hw.2.2
      simpa [analyzeChildren, hk] using this
    · have := ihsib st h1 h2 h3
      simpa [analyzeChildren, hk] using this

theorem pairwise_spelling_of_sorted (tg : List VarInfo) (pre : PyStr) (l : List PyStr)
    (h : ∀ u ∈ l, (lookupUsr tg u).all (fun v => u == pre ++ v.spelling) = true) :
    List.Pairwise (fun a b : VarInfo => strLE a.spelling b.spelling = true)
      ((pySorted l).filterMap (lookupUsr tg)) := by
  have hp := pySorted_pairwise l
  have hmem : ∀ u ∈ pySorted l, (lookupUsr tg u).all (fun v => u == pre ++ v.spelling) = true :=
    fun u hu => h u (mem_pySorted.mp hu)
  revert hp hmem
  generalize pySorted l = m
  intro hp hmem
  induction m with
  | nil => simp
  | cons u m ih =>
    rcases List.pairwise_cons.mp hp with ⟨hu, hm⟩
    have hmem0 := hmem u (List.mem_cons_self u m)
    have hmemtl : ∀ u' ∈ m, (lookupUsr tg u').all (fun v => u' == pre ++ v.spelling) = true :=
      fun u' hu' => hmem u' (List.mem_cons_of_mem u hu')
    cases hl : lookupUsr tg u with
    | none =>
      rw [List.filterMap_cons_none hl]
      exact ih hm hmemtl
    | some v =>
      rw [List.filterMap_cons_some hl]
      refine List.pairwise_cons.mpr ⟨?_, ih hm hmemtl⟩
      intro w hw
      rcases List.mem_filterMap.mp hw with ⟨u', hu', hl'⟩
      have equ : u = pre ++ v.spelling := by
        rw [hl] at hmem0
        simpa [Option.all] using hmem0
      have equ' : u' = pre ++ w.spelling := by
        have := hmemtl u' hu'
        rw [hl'] at this
        simpa [Option.all] using this
      have hle := hu u' hu'
      rw [equ, equ', strLE_append_left] at hle
      exact hle

/- Claim C8: dependency sets hold each variable at most once, and emission
order is sorted. -/

/-- C8: the three dependency collections of the analyzer never hold a
duplicate, however often a variable or callee is referenced; and under the
USR-key discipline of the source — every key is a fixed text followed by the variable
name — the emission order `sorted(used_...)` resolved through `tu_globals`
is sorted by variable name, for statics and for globals. -/
theorem c8_dependency_sets_dedup_and_sorted (tg : List VarInfo) (f : CForest)
    (preS preG : PyStr)
    (hS : ∀ u ∈ (analyze_function tg f).usedStatics,
      (lookupUsr tg u).all (fun v => u == preS ++ v.spelling) = true)
    (hG : ∀ u ∈ (analyze_function tg f).usedGlobals,
      (lookupUsr tg u).all (fun v => u == preG ++ v.spelling) = true) :
    (analyze_function tg f).calls.Nodup
    ∧ (analyze_function tg f).usedGlobals.Nodup
    ∧ (analyze_function tg f).usedStatics.Nodup
    ∧ List.Pairwise (fun a b : VarInfo => strLE a.spelling b.spelling = true)
        ((pySorted (analyze_function tg f).usedStatics).filterMap (lookupUsr tg))
    ∧ List.Pairwise (fun a b : VarInfo => strLE a.spelling b.spelling = true)
        ((pySorted (analyze_function tg f).usedGlobals).filterMap (lookupUsr tg)) := by
  have hn := analyzeChildren_nodup tg f ⟨[], [], []⟩ List.nodup_nil List.nodup_nil List.nodup_nil
  exact ⟨hn.1, hn.2.1, hn.2.2,
    pairwise_spelling_of_sorted tg preS _ hS,
    pairwise_spelling_of_sorted tg preG _ hG⟩

/-- C8 witness: the concrete forest references the static `a` twice and the
global `b` once and calls `helper` twice; the resolved emissions are sorted
by name. -/
theorem c8_dependency_sets_dedup_and_sorted_witness :
    (analyze_function wiTg wiForest).calls.Nodup
    ∧ (analyze_function wiTg wiForest).usedGlobals.Nodup
    ∧ (analyze_function wiTg wiForest).usedStatics.Nodup
    ∧ List.Pairwise (fun a b : VarInfo => strLE a.spelling b.spelling = true)
        ((pySorted (analyze_function wiTg wiForest).usedStatics).filterMap (lookupUsr wiTg))
    ∧ List.Pairwise (fun a b : VarInfo => strLE a.spelling b.spelling = true)
        ((pySorted (analyze_function wiTg wiForest).usedGlobals).filterMap (lookupUsr wiTg)) :=
  c8_dependency_sets_dedup_and_sorted wiTg wiForest "c:m.c@".toList "c:@".toList
    (by decide) (by decide)

/- Line-splitting lemmas shared by the implementation-file layout claim. -/

theorem splitOnChar_ne_nil (sep : Char) (s : PyStr) : splitOnChar sep s ≠ [] := by
  induction s with
  | nil => simp [splitOnChar]
  | cons c cs ih =>
    by_cases hc : c = sep
    · simp [splitOnChar, hc]
    · cases hs : splitOnChar sep cs with
      | nil => exact absurd hs ih
      | cons l ls => simp [splitOnChar, hc, hs]

theorem splitOnChar_append_sep (sep : Char) (a b : PyStr) :
    splitOnChar sep (a ++ sep :: b) = splitOnChar sep a ++ splitOnChar sep b := by
  induction a with
  | nil => simp [splitOnChar]
  | cons c as ih =>
    by_cases hc : c = sep
    · simp [splitOnChar, hc, ih]
    · cases hsa : splitOnChar sep as with
      | nil => exact absurd hsa (splitOnChar_ne_nil sep as)
      | cons l0 ls0 => simp [splitOnChar, hc, ih, hsa]

theorem splitOnChar_no_sep {sep : Char} {l : PyStr} (h : sep ∉ l) :
    splitOnChar sep l = [l] := by
  induction l with
  | nil => rfl
  | cons c cs ih =>
    have hc : ¬ c = sep := fun he => h (he ▸ List.mem_cons_self c cs)
    have hcs : sep ∉ cs := fun hm => h (List.mem_cons_of_mem c hm)
    simp [splitOnChar, hc, ih hcs]

theorem joinNL_cons_ne (x : PyStr) {L : List PyStr} (h : L ≠ []) :
    joinNL (x :: L) = x ++ '\n' :: joinNL L := by
  cases L with
  | nil => exact absurd rfl h
  | cons y ys => simp [joinNL]

theorem splitOnChar_joinNL (ls : List PyStr) (h : ls ≠ []) :
    splitOnChar '\n' (joinNL ls) = ls.flatMap (splitOnChar '\n') := by
  induction ls with
  | nil => exact absurd rfl h
  | cons l ms ih =>
    cases ms with
    | nil => simp [joinNL]
    | cons m ms' =>
      rw [joinNL_cons_ne l (by simp), splitOnChar_append_sep, ih (by simp)]
      simp

theorem joinNL_append_two (xs : List PyStr) (a b : PyStr) :
    ∃ pre, joinNL (xs ++ [a, b]) = pre ++ a ++ '\n' :: b := by
  induction xs with
  | nil => exact ⟨[], by simp [joinNL]⟩
  | cons x xs ih =>
    obtain ⟨pre', hpre'⟩ := ih
    refine ⟨x ++ '\n' :: pre', ?_⟩
    rw [List.cons_append, joinNL_cons_ne x (by simp), hpre']
    simp

theorem isInfix_append_left {α : Type} (s : List α) {x t : List α} (h : x <:+: t) :
    x <:+: s ++ t := by
  obtain ⟨u, w, hw⟩ := h
  exact ⟨s ++ u, w, by rw [← hw]; simp⟩

theorem isInfix_append_right {α : Type} (t : List α) {x s : List α} (h : x <:+: s) :
    x <:+: s ++ t := by
  obtain ⟨u, w, hw⟩ := h
  exact ⟨u, w ++ t, by rw [← hw]; simp⟩

theorem mem_flatMap_inf {α β : Type} (f : α → List β) {x : α} :
    ∀ {l : List α}, x ∈ l → f x <:+: l.flatMap f := by
  intro l
  induction l with
  | nil => intro h; simp at h
  | cons y ys ih =>
    intro h
    rcases List.mem_cons.mp h with rfl | h'
    · exact isInfix_append_right _ ⟨[], [], by simp⟩
    · exact isInfix_append_left _ (ih h')

/- Claim C5: layout of the generated implementation file. -/

/-- C5: in the generated implementation file, every copied global line is
the stripped original declaration normalized to end in `;`; every used
static contributes its normalized declaration immediately followed by its
accessor definitions; the marker `/* FUNCTION TO TEST */` occurs as exactly
one line — provided no input text embeds that line itself — placed after
all dependency blocks; and the file ends with the marker line immediately
followed by the verbatim function body. -/
theorem c5_impl_file_layout (fnName fnText : PyStr) (gvs svs : List VarInfo)
    (h1 : ∀ l ∈ implFront fnName gvs svs, markerLine ∉ splitOnChar '\n' l)
    (h2 : markerLine ∉ splitOnChar '\n' fnText) :
    (splitOnChar '\n' (genImpl fnName fnText gvs svs)).count markerLine = 1
    ∧ (∃ pre, genImpl fnName fnText gvs svs = pre ++ markerLine ++ '\n' :: fnText)
    ∧ (∀ v ∈ gvs, normDecl v.declText ∈ implFront fnName gvs svs)
    ∧ (∀ v ∈ svs, (normDecl v.declText :: implAccessorLines v) <:+: implFront fnName gvs svs)
    ∧ (∀ s, [';'] <:+ normDecl s
        ∧ (List.isSuffixOf [';'] (pyStrip s) = true → normDecl s = pyStrip s)) := by
  refine ⟨?_, ?_, ?_, ?_, ?_⟩
  · have hfront : ((implFront fnName gvs svs).flatMap (splitOnChar '\n')).count markerLine = 0 := by
      rw [List.count_eq_zero]
      intro hmem
      rcases List.mem_flatMap.mp hmem with ⟨l, hl, hml⟩
      exact h1 l hl hml
    have hmarker : splitOnChar '\n' markerLine = [markerLine] :=
      splitOnChar_no_sep (by decide)
    have h3 : ([markerLine, fnText] : List PyStr).flatMap (splitOnChar '\n')
        = markerLine :: splitOnChar '\n' fnText := by
      simp [hmarker]
    rw [genImpl, genImplLines, splitOnChar_joinNL _ (by simp), List.flatMap_append,
      List.count_append, hfront, h3, List.count_cons]
    simp [List.count_eq_zero.mpr h2]
  · rw [genImpl, genImplLines]
    exact joinNL_append_two _ _ _
  · intro v hv
    have hne : gvs.isEmpty = false := by
      cases gvs with
      | nil => simp at hv
      | cons g gs => rfl
    have hmm : normDecl v.declText ∈ gvs.map (fun v => normDecl v.declText) :=
      List.mem_map_of_mem _ hv
    simp only [implFront, hne, Bool.false_eq_true, if_false, List.mem_append]
    tauto
  · intro v hv
    have hne : svs.isEmpty = false := by
      cases svs with
      | nil => simp at hv
      | cons s ss => rfl
    have hblock : (normDecl v.declText :: implAccessorLines v) <:+:
        svs.flatMap (fun v => normDecl v.declText :: implAccessorLines v) :=
      mem_flatMap_inf (fun v => normDecl v.declText :: implAccessorLines v) hv
    simp only [implFront, hne, Bool.false_eq_true, if_false]
    exact isInfix_append_left _
      (isInfix_append_right _ (isInfix_append_left _ hblock))
  · intro s
    constructor
    · by_cases hsuf : List.isSuffixOf [';'] (pyStrip s) = true
      · simp only [normDecl, hsuf, if_true]
        exact List.isSuffixOf_iff_suffix.mp hsuf
      · simp only [normDecl, hsuf, if_false]
        exact List.suffix_append (pyStrip s) [';']
    · intro hsuf
      simp [normDecl, hsuf]

/-- C5 witness: the layout facts evaluated on a concrete function with one
used global and two used statics. -/
theorem c5_impl_file_layout_witness :
    (splitOnChar '\n' (genImpl "f".toList wiInp.fnText [wiG] [wiBuf, wiCount])).count markerLine = 1
    ∧ (∃ pre, genImpl "f".toList wiInp.fnText [wiG] [wiBuf, wiCount]
        = pre ++ markerLine ++ '\n' :: wiInp.fnText)
    ∧ (∀ v ∈ [wiG], normDecl v.declText ∈ implFront "f".toList [wiG] [wiBuf, wiCount])
    ∧ (∀ v ∈ [wiBuf, wiCount], (normDecl v.declText :: implAccessorLines v) <:+:
        implFront "f".toList [wiG] [wiBuf, wiCount])
    ∧ (∀ s, [';'] <:+ normDecl s
        ∧ (List.isSuffixOf [';'] (pyStrip s) = true → normDecl s = pyStrip s)) :=
  c5_impl_file_layout "f".toList wiInp.fnText [wiG] [wiBuf, wiCount] (by decide) (by decide)

/- Write-map lemmas shared by the header-copy claim. -/

theorem find_key_cons_pos (m : PyStr) (e : PyStr × PyStr) (l : List (PyStr × PyStr))
    (h : (e.1 == m) = true) :
    List.find? (fun x => x.1 == m) (e :: l) = some e := by
  simp [List.find?_cons, h]

theorem find_key_cons_neg (m : PyStr) (e : PyStr × PyStr) (l : List (PyStr × PyStr))
    (h : (e.1 == m) = false) :
    List.find? (fun x => x.1 == m) (e :: l) = List.find? (fun x => x.1 == m) l := by
  simp [List.find?_cons, h]

theorem find_map_replace (n c m : PyStr) (h : ¬ m = n) :
    ∀ d : List (PyStr × PyStr),
      (d.map (fun e => if e.1 = n then (n, c) else e)).find? (fun e => e.1 == m)
        = d.find? (fun e => e.1 == m) := by
  intro d
  induction d with
  | nil => rfl
  | cons e es ih =>
    by_cases he : e.1 = n
    · have hnm : ((n, c).1 == m) = false := by
        simp only [beq_eq_false_iff_ne, ne_eq]
        intro hnm
        exact h (hnm ▸ rfl)
      have hem : (e.1 == m) = false := by
        rw [he]
        simpa using hnm
      rw [List.map_cons, if_pos he, find_key_cons_neg m (n, c) _ hnm, find_key_cons_neg m e _ hem]
      exact ih
    · rw [List.map_cons, if_neg he]
      by_cases hem : (e.1 == m) = true
      · rw [find_key_cons_pos m e _ hem, find_key_cons_pos m e _ hem]
      · have hem2 : (e.1 == m) = false := by simpa using hem
        rw [find_key_cons_neg m e _ hem2, find_key_cons_neg m e _ hem2]
        exact ih

theorem find_map_replace_hit (n c : PyStr) :
    ∀ d : List (PyStr × PyStr), d.any (fun e => e.1 = n) = true →
      (d.map (fun e => if e.1 = n then (n, c) else e)).find? (fun e => e.1 == n)
        = some (n, c) := by
  intro d
  induction d with
  | nil => intro hany; simp at hany
  | cons e es ih =>
    intro hany
    by_cases he : e.1 = n
    · rw [List.map_cons, if_pos he, find_key_cons_pos n (n, c) _ (by simp)]
    · have hany2 : es.any (fun e => decide (e.1 = n)) = true := by
        rcases List.any_eq_true.mp hany with ⟨x, hx, hpx⟩
        rcases List.mem_cons.mp hx with rfl | hx2
        · simp [he] at hpx
        · exact List.any_eq_true.mpr ⟨x, hx2, hpx⟩
      rw [List.map_cons, if_neg he, find_key_cons_neg n e _ (by simpa using he)]
      exact ih hany2

theorem find_append_single_hit (n c : PyStr) :
    ∀ d : List (PyStr × PyStr), d.find? (fun e => e.1 == n) = none →
      (d ++ [(n, c)]).find? (fun e => e.1 == n) = some (n, c) := by
  intro d
  induction d with
  | nil => intro _; exact find_key_cons_pos n (n, c) _ (by simp)
  | cons e es ih =>
    intro hnone
    rw [List.find?_eq_none] at hnone
    have he := hnone e (List.mem_cons_self e es)
    rw [List.cons_append, find_key_cons_neg n e _ (by simpa using he)]
    exact ih (List.find?_eq_none.mpr (fun x hx => hnone x (List.mem_cons_of_mem e hx)))

theorem find_append_single_none (n c m : PyStr) (hm : ¬ m = n) :
    ∀ d : List (PyStr × PyStr),
      (d ++ [(n, c)]).find? (fun e => e.1 == m) = d.find? (fun e => e.1 == m) := by
  intro d
  induction d with
  | nil =>
    simp only [List.nil_append, List.find?_nil]
    rw [find_key_cons_neg m (n, c) _ (by simp only [beq_eq_false_iff_ne, ne_eq]; intro he; exact hm he.symm)]
    rfl
  | cons e es ih =>
    by_cases hem : (e.1 == m) = true
    · rw [List.cons_append, find_key_cons_pos m e _ hem, find_key_cons_pos m e _ hem]
    · have hem2 : (e.1 == m) = false := by simpa using hem
      rw [List.cons_append, find_key_cons_neg m e _ hem2, find_key_cons_neg m e _ hem2]
      exact ih

theorem find_writeFile_hit (d : List (PyStr × PyStr)) (n c : PyStr) :
    (writeFile d n c).find? (fun e => e.1 == n) = some (n, c) := by
  unfold writeFile
  split
  · rename_i hany
    exact find_map_replace_hit n c d hany
  · rename_i hany
    apply find_append_single_hit n c d
    rw [List.find?_eq_none]
    intro e he hbe
    exact hany (List.any_eq_true.mpr ⟨e, he, by simpa using hbe⟩)

theorem find_writeFile_other (d : List (PyStr × PyStr)) (n c m : PyStr) (h : ¬ m = n) :
    (writeFile d n c).find? (fun e => e.1 == m) = d.find? (fun e => e.1 == m) := by
  unfold writeFile
  split
  · exact find_map_replace n c m h d
  · exact find_append_single_none n c m h d

theorem find_foldl_writeFile (fnName : PyStr) :
    ∀ (hs : List HeaderFile) (acc : List (PyStr × PyStr)) (n : PyStr),
      (hs.foldl (fun a h => writeFile a (hname h) (removeProtoL h.content fnName)) acc).find?
          (fun e => e.1 == n)
        = match (hs.filter (fun h => hname h == n)).getLast? with
          | some h => some (n, removeProtoL h.content fnName)
          | none => acc.find? (fun e => e.1 == n) := by
  intro hs
  induction hs with
  | nil => intro acc n; rfl
  | cons h t ih =>
    intro acc n
    rw [List.foldl_cons, ih]
    by_cases hn : hname h = n
    · have hb : (hname h == n) = true := by simpa using hn
      have hrw : (h :: t).filter (fun h => hname h == n)
          = h :: t.filter (fun h => hname h == n) := by
        simp [List.filter_cons, hb]
      rw [hrw]
      cases hft : t.filter (fun h => hname h == n) with
      | nil =>
        subst hn
        simp only [List.getLast?_nil, List.getLast?_singleton]
        exact find_writeFile_hit acc (hname h) (removeProtoL h.content fnName)
      | cons f fs =>
        rw [List.getLast?_cons_cons]
        cases hxx : (f :: fs).getLast? with
        | none => simp [List.getLast?_eq_none_iff] at hxx
        | some x => simp [hxx]
    · have hb : (hname h == n) = false := by simpa using hn
      have hfil : (h :: t).filter (fun h => hname h == n)
          = t.filter (fun h => hname h == n) := by
        simp [List.filter_cons, hb]
      rw [hfil]
      cases hft : t.filter (fun h => hname h == n) with
      | nil =>
        simp only [List.getLast?_nil]
        exact find_writeFile_other acc (hname h) (removeProtoL h.content fnName) n
          (fun he => hn he.symm)
      | cons f fs =>
        cases hxx : (f :: fs).getLast? with
        | none => simp [List.getLast?_eq_none_iff] at hxx
        | some x => simp [hxx]

theorem keys_map_replace (n c : PyStr) :
    ∀ d : List (PyStr × PyStr),
      ((d.map (fun e => if e.1 = n then (n, c) else e)).map Prod.fst) = d.map Prod.fst := by
  intro d
  induction d with
  | nil => rfl
  | cons e es ih =>
    by_cases he : e.1 = n
    · simp [he, ih]
    · simp [he, ih]

theorem writeFile_keys_nodup (d : List (PyStr × PyStr)) (n c : PyStr)
    (h : (d.map Prod.fst).Nodup) : ((writeFile d n c).map Prod.fst).Nodup := by
  unfold writeFile
  split
  · rw [keys_map_replace]
    exact h
  · rename_i hany
    have hn : n ∉ d.map Prod.fst := by
      intro hmem
      rcases List.mem_map.mp hmem with ⟨e, he, hfst⟩
      exact hany (List.any_eq_true.mpr ⟨e, he, by simp [hfst]⟩)
    rw [List.map_append]
    refine List.Nodup.append h (by simp) ?_
    intro a ha hb
    simp only [List.map_cons, List.map_nil, List.mem_singleton] at hb
    exact hn (hb ▸ ha)

theorem foldl_writeFile_keys_nodup (fnName : PyStr) :
    ∀ (hs : List HeaderFile) (acc : List (PyStr × PyStr)), (acc.map Prod.fst).Nodup →
      ((hs.foldl (fun a h => writeFile a (hname h) (removeProtoL h.content fnName)) acc).map
        Prod.fst).Nodup := by
  intro hs
  induction hs with
  | nil => intro acc h; exact h
  | cons h t ih =>
    intro acc hacc
    exact ih _ (writeFile_keys_nodup _ _ _ hacc)

theorem srcGenFiles_keys_nodup (inp : FnInput) :
    ((srcGenFiles inp []).map Prod.fst).Nodup := by
  unfold srcGenFiles
  apply foldl_writeFile_keys_nodup
  apply writeFile_keys_nodup
  apply writeFile_keys_nodup
  simp

theorem count_map_line {α : Type} (g : α → PyStr) (pre post : PyStr)
    (hs : List α) (n : PyStr) :
    ((hs.map (fun h => pre ++ g h ++ post)).count (pre ++ n ++ post))
      = hs.countP (fun h => g h == n) := by
  induction hs with
  | nil => rfl
  | cons h t ih =>
    by_cases he : g h = n
    · simp [List.count_cons, List.countP_cons, he]
      simpa using ih
    · have h1 : ¬ (pre ++ g h ++ post = pre ++ n ++ post) := fun heq =>
        he (List.append_cancel_left (List.append_cancel_right heq))
      simp [List.count_cons, List.countP_cons, he, h1]
      simpa using ih

/- Claim C10: header copies are keyed by basename; include lines are emitted
per discovered path. -/

/-- C10: in the freshly populated `src/`, file names are unique — one file
per distinct basename — and for a name that is not one of the generated
`<fn>.h`/`<fn>.c` files the stored content is the cleaned copy of the LAST
discovered header with that basename (later writes overwrite earlier ones),
while the generated header and stub test emit one include line per
discovered path, so equal basenames yield duplicate include lines. -/
theorem c10_header_copies_keyed_by_basename (inp : FnInput) (n : PyStr)
    (hn1 : ¬ n = inp.fnName ++ ".h".toList) (hn2 : ¬ n = inp.fnName ++ ".c".toList) :
    ((srcGenFiles inp []).map Prod.fst).Nodup
    ∧ (srcGenFiles inp []).find? (fun e => e.1 == n)
        = (match (inp.headersAll.filter (fun h => hname h == n)).getLast? with
          | some h => some (n, removeProtoL h.content inp.fnName)
          | none => none)
    ∧ (inp.headersAll.map (fun h => includeLine (hname h))).count (includeLine n)
        = inp.headersAll.countP (fun h => hname h == n)
    ∧ (inp.headersAll.map (fun h => includeLine (hname h))) <:+:
        genHeaderLines inp.fnName inp.proto inp.headersAll (resolvedStatics inp)
    ∧ (inp.headersAll.map (fun h => "#include \"mock_".toList ++ hname h ++ "\"".toList)).count
          ("#include \"mock_".toList ++ n ++ "\"".toList)
        = inp.headersAll.countP (fun h => hname h == n) := by
  refine ⟨srcGenFiles_keys_nodup inp, ?_, ?_, ?_, ?_⟩
  · unfold srcGenFiles
    rw [find_foldl_writeFile]
    have hbase : (writeFile (writeFile [] (inp.fnName ++ ".h".toList)
          (genHeader inp.fnName inp.proto inp.headersAll (resolvedStatics inp)))
          (inp.fnName ++ ".c".toList)
          (genImpl inp.fnName inp.fnText (resolvedGlobals inp) (resolvedStatics inp))).find?
        (fun e => e.1 == n) = none := by
      rw [find_writeFile_other _ _ _ _ hn2, find_writeFile_other _ _ _ _ hn1]
      rfl
    cases hft : inp.headersAll.filter (fun h => hname h == n) with
    | nil => simpa [hft] using hbase
    | cons f fs =>
      cases hxx : (f :: fs).getLast? with
      | none => simp [List.getLast?_eq_none_iff] at hxx
      | some x => simp [hxx]
  · simpa [includeLine] using
      count_map_line hname "#include \"".toList "\"".toList inp.headersAll n
  · refine ⟨["#ifndef TEST_".toList ++ pyUpper inp.fnName ++ "_H".toList,
      "#define TEST_".toList ++ pyUpper inp.fnName ++ "_H".toList, []], ?_, ?_⟩
    · exact [[]]
        ++ (if need_stddef (resolvedStatics inp) then ["#include <stddef.h>".toList] else [])
        ++ (if need_string (resolvedStatics inp) then ["#include <string.h>".toList] else [])
        ++ (if need_stddef (resolvedStatics inp) || need_string (resolvedStatics inp)
            then [[]] else [])
        ++ [inp.proto]
        ++ (resolvedStatics inp).flatMap headerAccessorLines
        ++ [[], "#endif /* TEST_".toList ++ pyUpper inp.fnName ++ "_H */\n".toList]
    · simp [genHeaderLines]
  · exact count_map_line hname "#include \"mock_".toList "\"".toList inp.headersAll n

/-- C10 witness: with two discovered headers both named `alpha.h`, the
populated `src/` holds exactly one `alpha.h` whose content is the cleaned
copy of the later path, while header and stub test each hold two include
lines for `alpha.h`. -/
theorem c10_header_copies_keyed_by_basename_witness :
    ((srcGenFiles wiInp []).map Prod.fst).Nodup
    ∧ (srcGenFiles wiInp []).find? (fun e => e.1 == "alpha.h".toList)
        = (match (wiInp.headersAll.filter (fun h => hname h == "alpha.h".toList)).getLast? with
          | some h => some ("alpha.h".toList, removeProtoL h.content wiInp.fnName)
          | none => none)
    ∧ (wiInp.headersAll.map (fun h => includeLine (hname h))).count (includeLine "alpha.h".toList)
        = wiInp.headersAll.countP (fun h => hname h == "alpha.h".toList)
    ∧ (wiInp.headersAll.map (fun h => includeLine (hname h))) <:+:
        genHeaderLines wiInp.fnName wiInp.proto wiInp.headersAll (resolvedStatics wiInp)
    ∧ (wiInp.headersAll.map (fun h => "#include \"mock_".toList ++ hname h ++ "\"".toList)).count
          ("#include \"mock_".toList ++ "alpha.h".toList ++ "\"".toList)
        = wiInp.headersAll.countP (fun h => hname h == "alpha.h".toList) :=
  c10_header_copies_keyed_by_basename wiInp "alpha.h".toList (by decide) (by decide)

/- Regex-model lemmas shared by the prototype-removal claim. -/

theorem isInfix_cons {α : Type} (c : α) {l t : List α} (h : l <:+: t) : l <:+: c :: t := by
  obtain ⟨u, w, hw⟩ := h
  exact ⟨c :: u, w, by rw [← hw]; rfl⟩

theorem sufInf {α : Type} {l t : List α} (h : l <:+ t) : l <:+: t := by
  obtain ⟨u, hu⟩ := h
  exact ⟨u, [], by rw [← hu]; simp⟩

theorem preInf {α : Type} {l t : List α} (h : l <+: t) : l <:+: t := by
  obtain ⟨u, hu⟩ := h
  exact ⟨[], u, by rw [← hu]; simp⟩

theorem isPrefixOf_true_iff {l t : PyStr} : List.isPrefixOf l t = true ↔ l <+: t :=
  List.isPrefixOf_iff_prefix

theorem orElseO_some {a b : Option PyStr} {r : PyStr} (h : orElseO a b = some r) :
    a = some r ∨ (a = none ∧ b = some r) := by
  cases a with
  | some v =>
    left
    simpa [orElseO] using h
  | none =>
    right
    exact ⟨rfl, by simpa [orElseO] using h⟩

theorem starGreedy_some_suffix (p : Char → Bool) (k : PyStr → Option PyStr) :
    ∀ s r, starGreedy p k s = some r → ∃ t, t <:+ s ∧ k t = some r := by
  intro s
  induction s with
  | nil =>
    intro r h
    exact ⟨[], List.suffix_refl [], by simpa [starGreedy] using h⟩
  | cons c rest ih =>
    intro r h
    simp only [starGreedy] at h
    by_cases hp : p c = true
    · rw [if_pos hp] at h
      rcases orElseO_some h with h1 | ⟨_, h2⟩
      · obtain ⟨t, ht, hk⟩ := ih r h1
        exact ⟨t, ht.trans (List.suffix_cons c rest), hk⟩
      · exact ⟨c :: rest, List.suffix_refl _, h2⟩
    · rw [if_neg hp] at h
      exact ⟨c :: rest, List.suffix_refl _, h⟩

theorem lazyRest_some_suffix (p : Char → Bool) (k : PyStr → Option PyStr) :
    ∀ s r, lazyRest p k s = some r → ∃ t, t <:+ s ∧ k t = some r := by
  intro s
  induction s with
  | nil =>
    intro r h
    exact ⟨[], List.suffix_refl [], by simpa [lazyRest] using h⟩
  | cons c rest ih =>
    intro r h
    simp only [lazyRest] at h
    rcases orElseO_some h with h1 | ⟨_, h2⟩
    · exact ⟨c :: rest, List.suffix_refl _, h1⟩
    · by_cases hp : p c = true
      · rw [if_pos hp] at h2
        obtain ⟨t, ht, hk⟩ := ih r h2
        exact ⟨t, ht.trans (List.suffix_cons c rest), hk⟩
      · rw [if_neg hp] at h2
        exact absurd h2 (by simp)

theorem nameTail_some_pref (nm s r : PyStr) (h : nameTail nm s = some r) : nm <+: s := by
  by_cases hp : List.isPrefixOf nm s = true
  · exact isPrefixOf_true_iff.mp hp
  · rw [nameTail, if_neg hp] at h
    exact absurd h (by simp)

theorem afterMid_some_inf (nm : PyStr) :
    ∀ s r, afterMid nm s = some r → nm <:+: s := by
  intro s r h
  cases s with
  | nil => simp [afterMid] at h
  | cons c rest =>
    simp only [afterMid] at h
    by_cases hc : spaceChar c = true
    · rw [if_pos hc] at h
      obtain ⟨t, ht, hk⟩ := starGreedy_some_suffix _ _ rest r h
      exact isInfix_cons c ((preInf (nameTail_some_pref nm t r hk)).trans (sufInf ht))
    · rw [if_neg hc] at h
      exact absurd h (by simp)

theorem withMid_some_inf (nm : PyStr) (c : Char) (rest r : PyStr)
    (h : withMid nm (c :: rest) = some r) : nm <:+: rest := by
  simp only [withMid] at h
  by_cases hc : headChar c = true
  · rw [if_pos hc] at h
    cases rest with
    | nil => simp [plusLazy] at h
    | cons d r2 =>
      simp only [plusLazy] at h
      by_cases hd : protoMidChar d = true
      · rw [if_pos hd] at h
        obtain ⟨t, ht, hk⟩ := lazyRest_some_suffix _ _ r2 r h
        exact isInfix_cons d ((afterMid_some_inf nm t r hk).trans (sufInf ht))
      · rw [if_neg hd] at h
        exact absurd h (by simp)
  · rw [if_neg hc] at h
    exact absurd h (by simp)

theorem matchCore_some_inf (nm t r : PyStr) (h : matchCore nm t = some r) : nm <:+: t := by
  rcases orElseO_some (show orElseO (withMid nm t) (nameTail nm t) = some r from h) with
    h1 | ⟨_, h2⟩
  · cases t with
    | nil => simp [withMid] at h1
    | cons c rest => exact isInfix_cons c (withMid_some_inf nm c rest r h1)
  · exact preInf (nameTail_some_pref nm t r h2)

theorem matchAfterAnchor_some_inf (nm s r : PyStr) (h : matchAfterAnchor nm s = some r) :
    nm <:+: s := by
  obtain ⟨t, ht, hk⟩ :=
    starGreedy_some_suffix _ _ s r (show starGreedy spaceChar (matchCore nm) s = some r from h)
  exact (matchCore_some_inf nm t r hk).trans (sufInf ht)

theorem tryMatch_some_inf (nm s : PyStr) (b : Bool) (pr : PyStr × PyStr)
    (h : tryMatch nm s b = some pr) : nm <:+: s := by
  simp only [tryMatch] at h
  cases b with
  | false =>
    simp only [Bool.false_eq_true, if_false] at h
    split at h
    · rename_i rest
      cases hma : matchAfterAnchor nm rest with
      | none => rw [hma] at h; simp at h
      | some r => exact isInfix_cons '\n' (matchAfterAnchor_some_inf nm rest r hma)
    · simp at h
  | true =>
    simp only [if_true] at h
    split at h
    · rename_i r hma
      exact matchAfterAnchor_some_inf nm s r hma
    · rename_i hma
      split at h
      · rename_i rest
        cases hma2 : matchAfterAnchor nm rest with
        | none => rw [hma2] at h; simp at h
        | some r => exact isInfix_cons '\n' (matchAfterAnchor_some_inf nm rest r hma2)
      · simp at h

theorem subAux_succ (nm : PyStr) (fuel : Nat) (s : PyStr) (b : Bool) :
    subAux nm (fuel + 1) s b =
      match tryMatch nm s b with
      | some (g1, rest) => g1 ++ subAux nm fuel rest false
      | none =>
        match s with
        | [] => []
        | c :: cs => c :: subAux nm fuel cs false := by
  rfl

theorem subAux_no_occurrence (nm : PyStr) :
    ∀ (fuel : Nat) (s : PyStr) (b : Bool), ¬ nm <:+: s → subAux nm fuel s b = s := by
  intro fuel
  induction fuel with
  | zero => intro s b _; rfl
  | succ fuel ih =>
    intro s b hnin
    rw [subAux_succ]
    cases htm : tryMatch nm s b with
    | some pr => exact absurd (tryMatch_some_inf nm s b pr htm) hnin
    | none =>
      cases s with
      | nil => rfl
      | cons c cs =>
        show c :: subAux nm fuel cs false = c :: cs
        rw [ih cs false (fun hin => hnin (isInfix_cons c hin))]

theorem starGreedy_prepend (p : Char → Bool) (k : PyStr → Option PyStr) (rest r : PyStr) :
    ∀ args : PyStr, (∀ c ∈ args, p c = true) → starGreedy p k rest = some r →
      starGreedy p k (args ++ rest) = some r := by
  intro args
  induction args with
  | nil => intro _ h; simpa using h
  | cons a args ih =>
    intro hall h
    have ha : p a = true := hall a (List.mem_cons_self a args)
    have hrec := ih (fun c hc => hall c (List.mem_cons_of_mem a hc)) h
    rw [List.cons_append, starGreedy, if_pos ha, hrec]
    rfl

theorem protoAfterParen_proto (args : PyStr) (p0 : Char) (post : PyStr)
    (hargs : ∀ c ∈ args, argChar c = true) (hp0 : spaceChar p0 = false) :
    protoAfterParen (args ++ ')' :: ';' :: '\n' :: p0 :: post)
      = some ('\n' :: p0 :: post) := by
  have hp0n : ¬ p0 = '\n' := by
    intro he
    rw [he] at hp0
    simp [spaceChar] at hp0
  have s1 : starGreedy spaceChar lookaheadEnd (p0 :: post) = none := by
    rw [starGreedy, if_neg (by simp [hp0])]
    simp [lookaheadEnd, hp0n]
  have s2 : starGreedy spaceChar lookaheadEnd ('\n' :: p0 :: post)
      = some ('\n' :: p0 :: post) := by
    rw [starGreedy, if_pos (by decide), s1]
    simp [orElseO, lookaheadEnd]
  have s4 : starGreedy spaceChar semiTail (';' :: '\n' :: p0 :: post)
      = some ('\n' :: p0 :: post) := by
    rw [starGreedy, if_neg (by decide)]
    exact s2
  have s6 : starGreedy argChar parenClose (';' :: '\n' :: p0 :: post) = none := by
    rw [starGreedy, if_neg (by decide)]
    rfl
  have hbase : starGreedy argChar parenClose (')' :: ';' :: '\n' :: p0 :: post)
      = some ('\n' :: p0 :: post) := by
    rw [starGreedy, if_pos (by decide), s6]
    exact s4
  exact starGreedy_prepend argChar parenClose _ _ args hargs hbase

theorem headChar_wordChar {c : Char} (h : headChar c = true) : wordChar c = true := by
  unfold headChar at h
  simp only [Bool.or_eq_true] at h
  rcases h with h1 | h1
  · unfold wordChar
    rw [h1]
    rfl
  · have hc : c = '_' := of_decide_eq_true h1
    subst hc
    decide

theorem headChar_protoMid {c : Char} (h : headChar c = true) : protoMidChar c = true := by
  unfold protoMidChar
  rw [headChar_wordChar h]
  rfl

theorem headChar_not_space {c : Char} (h : headChar c = true) : spaceChar c = false := by
  cases hs : spaceChar c
  · rfl
  · exfalso
    unfold spaceChar at hs
    simp only [Bool.or_eq_true] at hs
    rcases hs with ((((h1 | h1) | h1) | h1) | h1) | h1 <;>
      rw [of_decide_eq_true h1] at h <;> exact absurd h (by decide)

theorem suffix_eq_drop {u l : PyStr} (h : u <:+ l) :
    u = l.drop (l.length - u.length) := by
  obtain ⟨t, rfl⟩ := h
  have he : (t ++ u).length - u.length = t.length := by
    simp only [List.length_append]
    omega
  rw [he, List.drop_left]

theorem starGreedy_some_split (p : Char → Bool) (k : PyStr → Option PyStr) :
    ∀ s r, starGreedy p k s = some r →
      ∃ seg t, s = seg ++ t ∧ (∀ c ∈ seg, p c = true) ∧ k t = some r := by
  intro s
  induction s with
  | nil =>
    intro r h
    exact ⟨[], [], rfl, by simp, by simpa [starGreedy] using h⟩
  | cons c rest ih =>
    intro r h
    simp only [starGreedy] at h
    by_cases hp : p c = true
    · rw [if_pos hp] at h
      rcases orElseO_some h with h1 | ⟨_, h2⟩
      · obtain ⟨seg, t, hst, hall, hk⟩ := ih r h1
        refine ⟨c :: seg, t, ?_, ?_, hk⟩
        · rw [List.cons_append, ← hst]
        · intro x hx
          rcases List.mem_cons.mp hx with hx | hx
          · rw [hx]; exact hp
          · exact hall x hx
      · exact ⟨[], c :: rest, rfl, by simp, h2⟩
    · rw [if_neg hp] at h
      exact ⟨[], c :: rest, rfl, by simp, h⟩

theorem lazyRest_some_split (p : Char → Bool) (k : PyStr → Option PyStr) :
    ∀ s r, lazyRest p k s = some r →
      ∃ seg t, s = seg ++ t ∧ (∀ c ∈ seg, p c = true) ∧ k t = some r := by
  intro s
  induction s with
  | nil =>
    intro r h
    exact ⟨[], [], rfl, by simp, by simpa [lazyRest] using h⟩
  | cons c rest ih =>
    intro r h
    simp only [lazyRest] at h
    rcases orElseO_some h with h1 | ⟨_, h2⟩
    · exact ⟨[], c :: rest, rfl, by simp, h1⟩
    · by_cases hp : p c = true
      · rw [if_pos hp] at h2
        obtain ⟨seg, t, hst, hall, hk⟩ := ih r h2
        refine ⟨c :: seg, t, ?_, ?_, hk⟩
        · rw [List.cons_append, ← hst]
        · intro x hx
          rcases List.mem_cons.mp hx with hx | hx
          · rw [hx]; exact hp
          · exact hall x hx
      · rw [if_neg hp] at h2
        exact absurd h2 (by simp)

theorem afterMid_some_split (nm : PyStr) (s r : PyStr) (h : afterMid nm s = some r) :
    ∃ e seg t, s = e :: (seg ++ t) ∧ spaceChar e = true ∧
      (∀ c ∈ seg, spaceChar c = true) ∧ nameTail nm t = some r := by
  cases s with
  | nil => simp [afterMid] at h
  | cons e rest =>
    simp only [afterMid] at h
    by_cases he : spaceChar e = true
    · rw [if_pos he] at h
      obtain ⟨seg, t, hst, hall, hk⟩ := starGreedy_some_split _ _ rest r h
      exact ⟨e, seg, t, by rw [hst], he, hall, hk⟩
    · rw [if_neg he] at h
      exact absurd h (by simp)

theorem withMid_some_split (nm : PyStr) (s r : PyStr) (h : withMid nm s = some r) :
    ∃ c d seg2 e seg3 t, s = c :: (d :: (seg2 ++ (e :: (seg3 ++ t)))) ∧
      headChar c = true ∧ protoMidChar d = true ∧ (∀ x ∈ seg2, protoMidChar x = true) ∧
      spaceChar e = true ∧ (∀ x ∈ seg3, spaceChar x = true) ∧ nameTail nm t = some r := by
  cases s with
  | nil => simp [withMid] at h
  | cons c rest =>
    simp only [withMid] at h
    by_cases hc : headChar c = true
    · rw [if_pos hc] at h
      cases rest with
      | nil => simp [plusLazy] at h
      | cons d r2 =>
        simp only [plusLazy] at h
        by_cases hd : protoMidChar d = true
        · rw [if_pos hd] at h
          obtain ⟨seg2, t2, hst, hall2, hk⟩ := lazyRest_some_split _ _ r2 r h
          obtain ⟨e, seg3, t, ht2, he, hall3, hnt⟩ := afterMid_some_split nm t2 r hk
          refine ⟨c, d, seg2, e, seg3, t, ?_, hc, hd, hall2, he, hall3, hnt⟩
          rw [hst, ht2]
        · rw [if_neg hd] at h
          exact absurd h (by simp)
    · rw [if_neg hc] at h
      exact absurd h (by simp)

theorem withMid_some_name (nm : PyStr) (c : Char) (rest r : PyStr)
    (h : withMid nm (c :: rest) = some r) :
    ∃ u, u <:+ rest ∧ nameTail nm u = some r := by
  obtain ⟨c', d, seg2, e, seg3, t, hs, _, _, _, _, _, hnt⟩ := withMid_some_split nm _ r h
  have hr : rest = d :: (seg2 ++ (e :: (seg3 ++ t))) := by
    have := List.tail_eq_of_cons_eq hs
    exact this
  refine ⟨t, ?_, hnt⟩
  rw [hr]
  exact ⟨d :: (seg2 ++ (e :: seg3)), by simp⟩

theorem lazyRest_isSome_append (p : Char → Bool) (k : PyStr → Option PyStr) :
    ∀ (seg rest : PyStr), (∀ c ∈ seg, p c = true) → (k rest).isSome = true →
      (lazyRest p k (seg ++ rest)).isSome = true := by
  intro seg
  induction seg with
  | nil =>
    intro rest _ hk
    obtain ⟨v, hv⟩ := Option.isSome_iff_exists.mp hk
    cases rest with
    | nil => simp [lazyRest, hv]
    | cons c t => simp [lazyRest, hv, orElseO]
  | cons c seg' ih =>
    intro rest hall hk
    rw [List.cons_append]
    cases hkc : k (c :: (seg' ++ rest)) with
    | some v => simp [lazyRest, hkc, orElseO]
    | none =>
      have hrec := ih rest (fun x hx => hall x (List.mem_cons_of_mem c hx)) hk
      simp [lazyRest, hkc, orElseO, hall c (List.mem_cons_self c seg'), hrec]

theorem nameTail_proto (nm args : PyStr) (q0 : Char) (post : PyStr)
    (hargs : ∀ c ∈ args, argChar c = true) (hq0 : spaceChar q0 = false) :
    nameTail nm (nm ++ ('(' :: (args ++ (')' :: ';' :: '\n' :: q0 :: post))))
      = some ('\n' :: q0 :: post) := by
  have hpre : List.isPrefixOf nm
      (nm ++ ('(' :: (args ++ (')' :: ';' :: '\n' :: q0 :: post)))) = true :=
    isPrefixOf_true_iff.mpr (List.prefix_append _ _)
  rw [nameTail, hpre, if_pos rfl, List.drop_left, starGreedy, if_neg (by decide)]
  exact protoAfterParen_proto args q0 post hargs hq0

theorem afterMid_proto (c0 s1 q0 : Char) (nm1 stail args post : PyStr)
    (hc0ns : spaceChar c0 = false) (hs1 : spaceChar s1 = true)
    (hstail : ∀ c ∈ stail, spaceChar c = true)
    (hargs : ∀ c ∈ args, argChar c = true) (hq0 : spaceChar q0 = false) :
    afterMid (c0 :: nm1)
      (s1 :: (stail ++ ((c0 :: nm1) ++ ('(' :: (args ++ (')' :: ';' :: '\n' :: q0 :: post))))))
      = some ('\n' :: q0 :: post) := by
  have hbase : starGreedy spaceChar (nameTail (c0 :: nm1))
      ((c0 :: nm1) ++ ('(' :: (args ++ (')' :: ';' :: '\n' :: q0 :: post))))
      = some ('\n' :: q0 :: post) := by
    rw [show ((c0 :: nm1) ++ ('(' :: (args ++ (')' :: ';' :: '\n' :: q0 :: post))))
        = c0 :: (nm1 ++ ('(' :: (args ++ (')' :: ';' :: '\n' :: q0 :: post)))) from rfl]
    rw [starGreedy, if_neg (by simp [hc0ns])]
    exact nameTail_proto (c0 :: nm1) args q0 post hargs hq0
  show (if spaceChar s1 = true then
      starGreedy spaceChar (nameTail (c0 :: nm1))
        (stail ++ ((c0 :: nm1) ++ ('(' :: (args ++ (')' :: ';' :: '\n' :: q0 :: post)))))
    else none) = some ('\n' :: q0 :: post)
  rw [if_pos hs1]
  exact starGreedy_prepend _ _ _ _ stail hstail hbase

theorem withMid_proto (c0 m0 s1 q0 : Char) (nm1 mrest stail args post : PyStr)
    (hc0ns : spaceChar c0 = false) (hm0 : headChar m0 = true) (hmne : mrest ≠ [])
    (hmrest : ∀ c ∈ mrest, protoMidChar c = true)
    (hs1 : spaceChar s1 = true) (hstail : ∀ c ∈ stail, spaceChar c = true)
    (hargs : ∀ c ∈ args, argChar c = true) (hq0 : spaceChar q0 = false)
    (huniq : ∀ u,
      u <:+ ((mrest ++ (s1 :: stail)) ++
        ((c0 :: nm1) ++ ('(' :: (args ++ (')' :: ';' :: '\n' :: q0 :: post))))) →
      (c0 :: nm1) <+: u →
      u = (c0 :: nm1) ++ ('(' :: (args ++ (')' :: ';' :: '\n' :: q0 :: post)))) :
    withMid (c0 :: nm1)
      (m0 :: ((mrest ++ (s1 :: stail)) ++
        ((c0 :: nm1) ++ ('(' :: (args ++ (')' :: ';' :: '\n' :: q0 :: post))))))
      = some ('\n' :: q0 :: post) := by
  obtain ⟨r1, rtail, rfl⟩ : ∃ r1 rtail, mrest = r1 :: rtail := by
    cases mrest with
    | nil => exact absurd rfl hmne
    | cons a b => exact ⟨a, b, rfl⟩
  have hk : afterMid (c0 :: nm1)
      ((s1 :: stail) ++ ((c0 :: nm1) ++ ('(' :: (args ++ (')' :: ';' :: '\n' :: q0 :: post)))))
      = some ('\n' :: q0 :: post) :=
    afterMid_proto c0 s1 q0 nm1 stail args post hc0ns hs1 hstail hargs hq0
  have hsome : (lazyRest protoMidChar (afterMid (c0 :: nm1))
      (rtail ++ ((s1 :: stail) ++
        ((c0 :: nm1) ++ ('(' :: (args ++ (')' :: ';' :: '\n' :: q0 :: post))))))).isSome
      = true :=
    lazyRest_isSome_append _ _ rtail _
      (fun c hc => hmrest c (List.mem_cons_of_mem r1 hc)) (by rw [hk]; rfl)
  obtain ⟨r', hr'⟩ := Option.isSome_iff_exists.mp hsome
  have hw : withMid (c0 :: nm1)
      (m0 :: (((r1 :: rtail) ++ (s1 :: stail)) ++
        ((c0 :: nm1) ++ ('(' :: (args ++ (')' :: ';' :: '\n' :: q0 :: post))))))
      = some r' := by
    show (if headChar m0 = true then
        plusLazy protoMidChar (afterMid (c0 :: nm1))
          (((r1 :: rtail) ++ (s1 :: stail)) ++
            ((c0 :: nm1) ++ ('(' :: (args ++ (')' :: ';' :: '\n' :: q0 :: post)))))
      else none) = some r'
    rw [if_pos hm0]
    show (if protoMidChar r1 = true then
        lazyRest protoMidChar (afterMid (c0 :: nm1))
          ((rtail ++ (s1 :: stail)) ++
            ((c0 :: nm1) ++ ('(' :: (args ++ (')' :: ';' :: '\n' :: q0 :: post)))))
      else none) = some r'
    rw [if_pos (hmrest r1 (List.mem_cons_self r1 rtail)), List.append_assoc]
    exact hr'
  obtain ⟨u, hu, hnt⟩ := withMid_some_name (c0 :: nm1) m0 _ r' hw
  have hueq : u = (c0 :: nm1) ++ ('(' :: (args ++ (')' :: ';' :: '\n' :: q0 :: post))) :=
    huniq u hu (nameTail_some_pref _ _ _ hnt)
  have hval : r' = '\n' :: q0 :: post := by
    rw [hueq] at hnt
    rw [nameTail_proto (c0 :: nm1) args q0 post hargs hq0] at hnt
    exact (Option.some_inj.mp hnt).symm
  rw [hw, hval]

theorem matchAfterAnchor_protoLine (c0 q0 : Char) (nm1 lws mid args post : PyStr)
    (hc0 : headChar c0 = true)
    (hargs : ∀ c ∈ args, argChar c = true)
    (hq0 : spaceChar q0 = false)
    (hlws : ∀ c ∈ lws, spaceChar c = true)
    (hmid : mid = [] ∨ ∃ m0 mrest s1 stail, mid = m0 :: (mrest ++ (s1 :: stail)) ∧
      headChar m0 = true ∧ mrest ≠ [] ∧ (∀ c ∈ mrest, protoMidChar c = true) ∧
      spaceChar s1 = true ∧ (∀ c ∈ stail, spaceChar c = true))
    (huniq : ∀ u,
      u <:+ (mid ++ ((c0 :: nm1) ++ ('(' :: (args ++ (')' :: ';' :: '\n' :: q0 :: post))))) →
      (c0 :: nm1) <+: u →
      u = (c0 :: nm1) ++ ('(' :: (args ++ (')' :: ';' :: '\n' :: q0 :: post)))) :
    matchAfterAnchor (c0 :: nm1)
      (lws ++ (mid ++ ((c0 :: nm1) ++ ('(' :: (args ++ (')' :: ';' :: '\n' :: q0 :: post))))))
      = some ('\n' :: q0 :: post) := by
  have hc0ns := headChar_not_space hc0
  rw [matchAfterAnchor]
  apply starGreedy_prepend _ _ _ _ lws hlws
  rcases hmid with hmid | ⟨m0, mrest, s1, stail, hmid, hm0, hmne, hmrest, hs1, hstail⟩
  · subst hmid
    rw [List.nil_append]
    rw [show ((c0 :: nm1) ++ ('(' :: (args ++ (')' :: ';' :: '\n' :: q0 :: post))))
        = c0 :: (nm1 ++ ('(' :: (args ++ (')' :: ';' :: '\n' :: q0 :: post)))) from rfl]
    rw [starGreedy, if_neg (by simp [hc0ns])]
    have h_wm : withMid (c0 :: nm1)
        (c0 :: (nm1 ++ ('(' :: (args ++ (')' :: ';' :: '\n' :: q0 :: post))))) = none := by
      cases hw : withMid (c0 :: nm1)
          (c0 :: (nm1 ++ ('(' :: (args ++ (')' :: ';' :: '\n' :: q0 :: post))))) with
      | none => rfl
      | some r =>
        exfalso
        obtain ⟨u, hu, hnt⟩ := withMid_some_name (c0 :: nm1) c0 _ r hw
        have hsub : (nm1 ++ ('(' :: (args ++ (')' :: ';' :: '\n' :: q0 :: post)))) <:+
            (([] : PyStr) ++ ((c0 :: nm1) ++ ('(' :: (args ++ (')' :: ';' :: '\n' :: q0 :: post))))) :=
          ⟨[c0], rfl⟩
        have hueq := huniq u (hu.trans hsub) (nameTail_some_pref _ _ _ hnt)
        have hle := List.IsSuffix.length_le hu
        have hlen := congrArg List.length hueq
        simp only [List.length_append, List.length_cons] at hle hlen
        omega
    have h_nt : nameTail (c0 :: nm1)
        (c0 :: (nm1 ++ ('(' :: (args ++ (')' :: ';' :: '\n' :: q0 :: post)))))
        = some ('\n' :: q0 :: post) :=
      nameTail_proto (c0 :: nm1) args q0 post hargs hq0
    rw [matchCore, h_wm, h_nt]
    rfl
  · subst hmid
    rw [show ((m0 :: (mrest ++ (s1 :: stail))) ++
          ((c0 :: nm1) ++ ('(' :: (args ++ (')' :: ';' :: '\n' :: q0 :: post)))))
        = m0 :: ((mrest ++ (s1 :: stail)) ++
          ((c0 :: nm1) ++ ('(' :: (args ++ (')' :: ';' :: '\n' :: q0 :: post))))) from rfl]
    rw [starGreedy, if_neg (by simp [headChar_not_space hm0])]
    have huniq2 : ∀ u,
        u <:+ ((mrest ++ (s1 :: stail)) ++
          ((c0 :: nm1) ++ ('(' :: (args ++ (')' :: ';' :: '\n' :: q0 :: post))))) →
        (c0 :: nm1) <+: u →
        u = (c0 :: nm1) ++ ('(' :: (args ++ (')' :: ';' :: '\n' :: q0 :: post))) := by
      intro u hu hp
      refine huniq u (hu.trans ?_) hp
      exact ⟨[m0], rfl⟩
    have h_wp := withMid_proto c0 m0 s1 q0 nm1 mrest stail args post hc0ns hm0 hmne
      hmrest hs1 hstail hargs hq0 huniq2
    rw [matchCore, h_wp]
    rfl

theorem matchAfterAnchor_some_span (nm u r : PyStr) (h : matchAfterAnchor nm u = some r) :
    ∃ seg rest2, u = seg ++ rest2 ∧
      (∀ c ∈ seg, spaceChar c = true ∨ protoMidChar c = true) ∧ nm <+: rest2 := by
  obtain ⟨seg1, t1, hu1, hall1, hk1⟩ := starGreedy_some_split _ _ u r h
  rcases orElseO_some hk1 with hwm | ⟨_, hnt⟩
  · obtain ⟨c, d, seg2, e, seg3, t, ht1, hc, hd, hseg2, he, hseg3, hnt⟩ :=
      withMid_some_split nm t1 r hwm
    refine ⟨seg1 ++ (c :: (d :: (seg2 ++ (e :: seg3)))), t, ?_, ?_,
      nameTail_some_pref _ _ _ hnt⟩
    · rw [hu1, ht1]
      simp
    · intro x hx
      simp only [List.mem_append, List.mem_cons] at hx
      rcases hx with hx | hx | hx | hx
      · exact Or.inl (hall1 x hx)
      · rw [hx]; exact Or.inr (headChar_protoMid hc)
      · rw [hx]; exact Or.inr hd
      · rcases hx with hx | hx | hx
        · exact Or.inr (hseg2 x hx)
        · rw [hx]; exact Or.inl he
        · exact Or.inl (hseg3 x hx)
  · exact ⟨seg1, t1, hu1, fun c hc => Or.inl (hall1 c hc), nameTail_some_pref _ _ _ hnt⟩

theorem matchAfterAnchor_none_of_blocked (nm u Q Tc : PyStr)
    (hu : u = Q ++ (nm ++ Tc))
    (huniq : ∀ w, w <:+ u → nm <+: w → w = nm ++ Tc)
    (hblk : ∃ c ∈ Q, spaceChar c = false ∧ protoMidChar c = false) :
    matchAfterAnchor nm u = none := by
  cases hma : matchAfterAnchor nm u with
  | none => rfl
  | some r =>
    exfalso
    obtain ⟨seg, rest2, hsplit, hclean, hpre⟩ := matchAfterAnchor_some_span nm u r hma
    have hr2 : rest2 = nm ++ Tc := huniq rest2 ⟨seg, hsplit.symm⟩ hpre
    have hqq : seg ++ (nm ++ Tc) = Q ++ (nm ++ Tc) := by
      rw [← hr2, ← hsplit, hu, hr2]
    have hseg : seg = Q := List.append_cancel_right hqq
    obtain ⟨cb, hcb, hcs, hcp⟩ := hblk
    have hmem : cb ∈ seg := by rw [hseg]; exact hcb
    rcases hclean cb hmem with h1 | h1
    · rw [hcs] at h1; exact Bool.noConfusion h1
    · rw [hcp] at h1; exact Bool.noConfusion h1

theorem tryMatch_true_eq (nm s : PyStr) : tryMatch nm s true =
    (match matchAfterAnchor nm s with
     | some r => some (([] : PyStr), r)
     | none => tryMatch nm s false) := rfl

theorem tryMatch_nl (nm z : PyStr) : tryMatch nm ('\n' :: z) false =
    (matchAfterAnchor nm z).map (fun r => (['\n'], r)) := rfl

theorem tryMatch_other (nm : PyStr) (c : Char) (z : PyStr) (hc : ¬ c = '\n') :
    tryMatch nm (c :: z) false = none := by
  show (match c :: z with
    | '\n' :: rest => (matchAfterAnchor nm rest).map (fun r => (['\n'], r))
    | _ => none) = none
  split
  · rename_i heq
    injection heq with h1 h2
    exact absurd h1 hc
  · rfl

theorem subAux_through_false (nm : PyStr) :
    ∀ (t : PyStr) (fuel : Nat) (rest : PyStr),
      (∀ t2, ('\n' :: t2) <:+ t → tryMatch nm ('\n' :: (t2 ++ rest)) false = none) →
      subAux nm (t.length + fuel) (t ++ rest) false = t ++ subAux nm fuel rest false := by
  intro t
  induction t with
  | nil =>
    intro fuel rest _
    simp
  | cons c t' ih =>
    intro fuel rest h
    have hlen : (c :: t').length + fuel = (t'.length + fuel) + 1 := by
      simp only [List.length_cons]
      omega
    rw [hlen, List.cons_append, subAux_succ]
    have htm : tryMatch nm (c :: (t' ++ rest)) false = none := by
      by_cases hc : c = '\n'
      · subst hc
        exact h t' (List.suffix_refl _)
      · exact tryMatch_other nm c _ hc
    rw [htm]
    show c :: subAux nm (t'.length + fuel) (t' ++ rest) false
      = c :: (t' ++ subAux nm fuel rest false)
    rw [ih fuel rest (fun t2 ht2 => h t2 (ht2.trans (List.suffix_cons c t')))]

theorem subAux_through_true (nm : PyStr) (c : Char) (t' : PyStr) (fuel : Nat) (rest : PyStr)
    (h0 : tryMatch nm ((c :: t') ++ rest) true = none)
    (h : ∀ t2, ('\n' :: t2) <:+ (c :: t') → tryMatch nm ('\n' :: (t2 ++ rest)) false = none) :
    subAux nm ((c :: t').length + fuel) ((c :: t') ++ rest) true
      = (c :: t') ++ subAux nm fuel rest false := by
  have hlen : (c :: t').length + fuel = (t'.length + fuel) + 1 := by
    simp only [List.length_cons]
    omega
  have h0' : tryMatch nm (c :: (t' ++ rest)) true = none := h0
  rw [hlen, List.cons_append, subAux_succ, h0']
  show c :: subAux nm (t'.length + fuel) (t' ++ rest) false
    = c :: (t' ++ subAux nm fuel rest false)
  rw [subAux_through_false nm t' fuel rest
    (fun t2 ht2 => h t2 (ht2.trans (List.suffix_cons c t')))]


theorem removeProtoL_protoLine (c0 q0 : Char) (nm1 lws mid args post : PyStr)
    (hc0 : headChar c0 = true)
    (hargs : ∀ c ∈ args, argChar c = true)
    (hq0 : spaceChar q0 = false)
    (hlws : ∀ c ∈ lws, spaceChar c = true)
    (hmid : mid = [] ∨ ∃ m0 mrest s1 stail, mid = m0 :: (mrest ++ (s1 :: stail)) ∧
      headChar m0 = true ∧ mrest ≠ [] ∧ (∀ c ∈ mrest, protoMidChar c = true) ∧
      spaceChar s1 = true ∧ (∀ c ∈ stail, spaceChar c = true))
    (huniq : ∀ u, u <:+ (mid ++ ((c0 :: nm1) ++ ('(' :: (args ++ (')' :: ';' :: '\n' :: q0 :: post))))) → (c0 :: nm1) <+: u → u = ((c0 :: nm1) ++ ('(' :: (args ++ (')' :: ';' :: '\n' :: q0 :: post))))) :
    removeProtoL (lws ++ (mid ++ ((c0 :: nm1) ++ ('(' :: (args ++ (')' :: ';' :: '\n' :: q0 :: post)))))) (c0 :: nm1) = ('\n' :: q0 :: post) := by
  have hmaa := matchAfterAnchor_protoLine c0 q0 nm1 lws mid args post hc0 hargs hq0 hlws
    hmid huniq
  have hnotail : ¬ ((c0 :: nm1) <:+: ('\n' :: q0 :: post)) := by
    intro hin
    obtain ⟨s, t, hst⟩ := hin
    have hu : ((c0 :: nm1) ++ t) <:+ ('\n' :: q0 :: post) :=
      ⟨s, by rw [← List.append_assoc]; exact hst⟩
    have hsuf2 : ('\n' :: q0 :: post) <:+ (mid ++ ((c0 :: nm1) ++ ('(' :: (args ++ (')' :: ';' :: '\n' :: q0 :: post))))) :=
      ⟨mid ++ ((c0 :: nm1) ++ ('(' :: (args ++ [')', ';']))), by simp⟩
    have he := huniq ((c0 :: nm1) ++ t) (hu.trans hsuf2) (List.prefix_append _ _)
    have hlen := congrArg List.length he
    have hle := List.IsSuffix.length_le hu
    simp only [List.length_append, List.length_cons] at hlen hle
    omega
  rw [removeProtoL, subAux_succ]
  rw [show tryMatch (c0 :: nm1) (lws ++ (mid ++ ((c0 :: nm1) ++ ('(' :: (args ++ (')' :: ';' :: '\n' :: q0 :: post)))))) true = some (([] : PyStr), ('\n' :: q0 :: post)) from by
    rw [tryMatch_true_eq, hmaa]]
  show ([] : PyStr) ++ subAux (c0 :: nm1) ((lws ++ (mid ++ ((c0 :: nm1) ++ ('(' :: (args ++ (')' :: ';' :: '\n' :: q0 :: post)))))).length) ('\n' :: q0 :: post) false = ('\n' :: q0 :: post)
  rw [List.nil_append]
  exact subAux_no_occurrence (c0 :: nm1) _ _ false hnotail

theorem removeProtoL_anchored (c0 q0 : Char) (nm1 pre lws mid args post : PyStr)
    (hc0 : headChar c0 = true)
    (hargs : ∀ c ∈ args, argChar c = true)
    (hq0 : spaceChar q0 = false)
    (hlws : ∀ c ∈ lws, spaceChar c = true)
    (hmid : mid = [] ∨ ∃ m0 mrest s1 stail, mid = m0 :: (mrest ++ (s1 :: stail)) ∧
      headChar m0 = true ∧ mrest ≠ [] ∧ (∀ c ∈ mrest, protoMidChar c = true) ∧
      spaceChar s1 = true ∧ (∀ c ∈ stail, spaceChar c = true))
    (hoccS : ∀ u, u <:+ (pre ++ '\n' :: (lws ++ (mid ++ ((c0 :: nm1) ++ ('(' :: (args ++ (')' :: ';' :: '\n' :: q0 :: post))))))) → (c0 :: nm1) <+: u → u = ((c0 :: nm1) ++ ('(' :: (args ++ (')' :: ';' :: '\n' :: q0 :: post)))))
    (hpreblk : ∃ c ∈ pre, spaceChar c = false ∧ protoMidChar c = false)
    (hnlblk : ∀ t, ('\n' :: t) <:+ pre →
      ∃ c ∈ t, spaceChar c = false ∧ protoMidChar c = false) :
    removeProtoL (pre ++ '\n' :: (lws ++ (mid ++ ((c0 :: nm1) ++ ('(' :: (args ++ (')' :: ';' :: '\n' :: q0 :: post))))))) (c0 :: nm1) = pre ++ '\n' :: '\n' :: q0 :: post := by
  obtain ⟨pb, hpb, hpbs, hpbm⟩ := hpreblk
  cases pre with
  | nil => exact absurd hpb (by simp)
  | cons p0 ptail =>
    have huniqMid : ∀ u, u <:+ (mid ++ ((c0 :: nm1) ++ ('(' :: (args ++ (')' :: ';' :: '\n' :: q0 :: post))))) → (c0 :: nm1) <+: u → u = ((c0 :: nm1) ++ ('(' :: (args ++ (')' :: ';' :: '\n' :: q0 :: post)))) := by
      intro u hu hp
      exact hoccS u (hu.trans ⟨(p0 :: ptail) ++ '\n' :: lws, by simp⟩) hp
    have hmaa := matchAfterAnchor_protoLine c0 q0 nm1 lws mid args post hc0 hargs hq0 hlws
      hmid huniqMid
    have hnotail : ¬ ((c0 :: nm1) <:+: ('\n' :: q0 :: post)) := by
      intro hin
      obtain ⟨s, t, hst⟩ := hin
      have hu : ((c0 :: nm1) ++ t) <:+ ('\n' :: q0 :: post) :=
        ⟨s, by rw [← List.append_assoc]; exact hst⟩
      have hsuf2 : ('\n' :: q0 :: post) <:+ ((p0 :: ptail) ++ '\n' :: (lws ++ (mid ++ ((c0 :: nm1) ++ ('(' :: (args ++ (')' :: ';' :: '\n' :: q0 :: post))))))) :=
        ⟨(p0 :: ptail) ++ '\n' :: (lws ++ (mid ++ ((c0 :: nm1) ++ ('(' :: (args ++ [')', ';']))))),
          by simp⟩
      have he := hoccS ((c0 :: nm1) ++ t) (hu.trans hsuf2) (List.prefix_append _ _)
      have hlen := congrArg List.length he
      have hle := List.IsSuffix.length_le hu
      simp only [List.length_append, List.length_cons] at hlen hle
      omega
    have hblocked : ∀ (W : PyStr),
        (∃ c ∈ W, spaceChar c = false ∧ protoMidChar c = false) →
        (W ++ ('\n' :: (lws ++ (mid ++ ((c0 :: nm1) ++ ('(' :: (args ++ (')' :: ';' :: '\n' :: q0 :: post)))))))) <:+ ((p0 :: ptail) ++ '\n' :: (lws ++ (mid ++ ((c0 :: nm1) ++ ('(' :: (args ++ (')' :: ';' :: '\n' :: q0 :: post))))))) →
        matchAfterAnchor (c0 :: nm1) (W ++ ('\n' :: (lws ++ (mid ++ ((c0 :: nm1) ++ ('(' :: (args ++ (')' :: ';' :: '\n' :: q0 :: post)))))))) = none := by
      intro W hW hsfx
      refine matchAfterAnchor_none_of_blocked (c0 :: nm1) _ (W ++ '\n' :: (lws ++ mid))
        ('(' :: (args ++ (')' :: ';' :: '\n' :: q0 :: post))) (by simp) ?_ ?_
      · intro w hw hp
        exact hoccS w (hw.trans hsfx) hp
      · obtain ⟨cb, hcb, h1, h2⟩ := hW
        exact ⟨cb, List.mem_append.mpr (Or.inl hcb), h1, h2⟩
    have h0 : tryMatch (c0 :: nm1) ((p0 :: ptail) ++ '\n' :: (lws ++ (mid ++ ((c0 :: nm1) ++ ('(' :: (args ++ (')' :: ';' :: '\n' :: q0 :: post))))))) true = none := by
      rw [tryMatch_true_eq,
        hblocked (p0 :: ptail) ⟨pb, hpb, hpbs, hpbm⟩ (List.suffix_refl _)]
      show tryMatch (c0 :: nm1) ((p0 :: ptail) ++ '\n' :: (lws ++ (mid ++ ((c0 :: nm1) ++ ('(' :: (args ++ (')' :: ';' :: '\n' :: q0 :: post))))))) false = none
      by_cases hp0 : p0 = '\n'
      · subst hp0
        rw [show (('\n' :: ptail) ++ '\n' :: (lws ++ (mid ++ ((c0 :: nm1) ++ ('(' :: (args ++ (')' :: ';' :: '\n' :: q0 :: post)))))))
            = '\n' :: (ptail ++ '\n' :: (lws ++ (mid ++ ((c0 :: nm1) ++ ('(' :: (args ++ (')' :: ';' :: '\n' :: q0 :: post))))))) from rfl]
        rw [tryMatch_nl, hblocked ptail (hnlblk ptail (List.suffix_refl _)) ⟨['\n'], rfl⟩]
        rfl
      · rw [List.cons_append]
        exact tryMatch_other _ p0 _ hp0
    have hnl : ∀ t2, ('\n' :: t2) <:+ (p0 :: ptail) →
        tryMatch (c0 :: nm1) ('\n' :: (t2 ++ ('\n' :: (lws ++ (mid ++ ((c0 :: nm1) ++ ('(' :: (args ++ (')' :: ';' :: '\n' :: q0 :: post))))))))) false = none := by
      intro t2 ht2
      obtain ⟨w, hw⟩ := ht2
      rw [tryMatch_nl, hblocked t2 (hnlblk t2 ⟨w, hw⟩) ⟨w ++ ['\n'], by rw [← hw]; simp⟩]
      rfl
    rw [removeProtoL]
    rw [show (((p0 :: ptail) ++ '\n' :: (lws ++ (mid ++ ((c0 :: nm1) ++ ('(' :: (args ++ (')' :: ';' :: '\n' :: q0 :: post))))))).length + 1)
        = ((p0 :: ptail).length + ((lws ++ (mid ++ ((c0 :: nm1) ++ ('(' :: (args ++ (')' :: ';' :: '\n' :: q0 :: post)))))).length + 1 + 1)) from by
      simp only [List.length_append, List.length_cons]
      omega]
    rw [subAux_through_true (c0 :: nm1) p0 ptail ((lws ++ (mid ++ ((c0 :: nm1) ++ ('(' :: (args ++ (')' :: ';' :: '\n' :: q0 :: post)))))).length + 1 + 1) ('\n' :: (lws ++ (mid ++ ((c0 :: nm1) ++ ('(' :: (args ++ (')' :: ';' :: '\n' :: q0 :: post))))))) h0 hnl]
    congr 1
    rw [subAux_succ, tryMatch_nl, hmaa]
    show '\n' :: subAux (c0 :: nm1) ((lws ++ (mid ++ ((c0 :: nm1) ++ ('(' :: (args ++ (')' :: ';' :: '\n' :: q0 :: post)))))).length + 1) ('\n' :: q0 :: post) false = '\n' :: '\n' :: q0 :: post
    rw [subAux_no_occurrence (c0 :: nm1) _ _ false hnotail]

/- Claim C6.  The regex of `remove_function_proto_from_header` is anchored:
group 1 is `(^|\n)`, so only a prototype whose (optionally prefixed) text
begins at the start of a line is matched, and the trailing `\s*(?=\n|$)`
requires the terminating `;` to be followed by whitespace up to a newline or
the end of the file.  A prototype embedded after other text on a line
therefore survives in the cleaned copy, against the words "any
function-call-style signature". -/

/-- C6 counterexample: with the prototype after `extern int x; ` on the same
line, the cleaned header is unchanged and still contains the signature text
`foo(void);` of the isolated function `foo`. -/
theorem c6_counterexample_midline_proto_survives :
    remove_function_proto_from_header "extern int x; int foo(void);\n" "foo"
        = "extern int x; int foo(void);\n"
    ∧ "foo(void);".toList <:+:
        (remove_function_proto_from_header "extern int x; int foo(void);\n" "foo").toList := by
  constructor
  · decide
  · decide

/-- C6 amended: removal is anchored and line-local.  First conjunct: in a copy
of the form `pre`, newline, whitespace `lws`, an optional return-type prefix
`mid` (a word-start character, at least one more prefix-class character, then
whitespace separating it from the name), the exact function name, `(`,
parameters free of `;` and `\x7b`, `)`, `;`, a newline, and a next line
starting with a non-whitespace character — when the name occurs nowhere else
and every line of `pre` holds a character outside the whitespace and
prefix-class characters, exactly the anchored prototype text is removed and
all surrounding text is preserved: both newlines around the removed line
remain, leaving an empty line.  Second conjunct: the same own-line prototype
at the very start of the copy is removed, keeping its terminating newline.
Remaining conjuncts pin the boundary behaviour on concrete copies:
`int *foo(void);` survives because `*` touches the name, so the prefix group
(which must end in whitespace) cannot match; at end of file the terminating
newline is consumed together with the prototype; and a blank line directly
after the prototype line is collapsed into the match. -/
theorem c6_anchored_prototype_removal (c0 q0 : Char) (nm1 pre lws mid args post : PyStr)
    (hc0 : headChar c0 = true)
    (hargs : ∀ c ∈ args, argChar c = true)
    (hq0 : spaceChar q0 = false)
    (hlws : ∀ c ∈ lws, spaceChar c = true)
    (hmid : mid = [] ∨ ∃ m0 mrest s1 stail, mid = m0 :: (mrest ++ (s1 :: stail)) ∧
      headChar m0 = true ∧ mrest ≠ [] ∧ (∀ c ∈ mrest, protoMidChar c = true) ∧
      spaceChar s1 = true ∧ (∀ c ∈ stail, spaceChar c = true))
    (hocc : ∀ i, i ≤ (pre ++ '\n' :: (lws ++ (mid ++ ((c0 :: nm1) ++ ('(' :: (args ++ (')' :: ';' :: '\n' :: q0 :: post))))))).length →
      List.isPrefixOf (c0 :: nm1) ((pre ++ '\n' :: (lws ++ (mid ++ ((c0 :: nm1) ++ ('(' :: (args ++ (')' :: ';' :: '\n' :: q0 :: post))))))).drop i) = true → (pre ++ '\n' :: (lws ++ (mid ++ ((c0 :: nm1) ++ ('(' :: (args ++ (')' :: ';' :: '\n' :: q0 :: post))))))).drop i = ((c0 :: nm1) ++ ('(' :: (args ++ (')' :: ';' :: '\n' :: q0 :: post)))))
    (hpreblk : ∃ c ∈ pre, spaceChar c = false ∧ protoMidChar c = false)
    (hnlblk : ∀ t, ('\n' :: t) <:+ pre →
      ∃ c ∈ t, spaceChar c = false ∧ protoMidChar c = false) :
    removeProtoL (pre ++ '\n' :: (lws ++ (mid ++ ((c0 :: nm1) ++ ('(' :: (args ++ (')' :: ';' :: '\n' :: q0 :: post))))))) (c0 :: nm1) = pre ++ '\n' :: '\n' :: q0 :: post
    ∧ removeProtoL (lws ++ (mid ++ ((c0 :: nm1) ++ ('(' :: (args ++ (')' :: ';' :: '\n' :: q0 :: post)))))) (c0 :: nm1) = '\n' :: q0 :: post
    ∧ remove_function_proto_from_header "int *foo(void);\nint g(void);\n" "foo"
        = "int *foo(void);\nint g(void);\n"
    ∧ remove_function_proto_from_header "int foo(void);\n" "foo" = ""
    ∧ remove_function_proto_from_header "int foo(void);\n\nint g(void);\n" "foo"
        = "\nint g(void);\n" := by
  have hoccS : ∀ u, u <:+ (pre ++ '\n' :: (lws ++ (mid ++ ((c0 :: nm1) ++ ('(' :: (args ++ (')' :: ';' :: '\n' :: q0 :: post))))))) → (c0 :: nm1) <+: u → u = ((c0 :: nm1) ++ ('(' :: (args ++ (')' :: ';' :: '\n' :: q0 :: post)))) := by
    intro u hu hp
    have hd := suffix_eq_drop hu
    have hkey := hocc ((pre ++ '\n' :: (lws ++ (mid ++ ((c0 :: nm1) ++ ('(' :: (args ++ (')' :: ';' :: '\n' :: q0 :: post))))))).length - u.length) (Nat.sub_le _ _)
      (by rw [← hd]; exact isPrefixOf_true_iff.mpr hp)
    rw [hd]
    exact hkey
  refine ⟨removeProtoL_anchored c0 q0 nm1 pre lws mid args post hc0 hargs hq0 hlws hmid
      hoccS hpreblk hnlblk,
    removeProtoL_protoLine c0 q0 nm1 lws mid args post hc0 hargs hq0 hlws hmid
      (fun u hu hp => hoccS u (hu.trans ⟨pre ++ '\n' :: lws, by simp⟩) hp),
    by decide, by decide, by decide⟩

/-- C6 amended witness: in a concrete guarded header the prefixed own-line
prototype `int foo(int a, int b);` on the second line is removed, leaving an
empty line between the guard and the next prototype; the same prototype at
the very start of a copy is removed keeping its terminating newline. -/
theorem c6_anchored_prototype_removal_witness :
    remove_function_proto_from_header
        "#ifndef H\nint foo(int a, int b);\nint g(void);\n#endif\n" "foo"
      = "#ifndef H\n\nint g(void);\n#endif\n"
    ∧ remove_function_proto_from_header
        "int foo(int a, int b);\nint g(void);\n#endif\n" "foo"
      = "\nint g(void);\n#endif\n" := by
  have h := c6_anchored_prototype_removal 'f' 'i' "oo".toList "#ifndef H".toList []
    "int ".toList "int a, int b".toList "nt g(void);\n#endif\n".toList
    (by decide) (by decide) (by decide) (by decide)
    (Or.inr ⟨'i', "nt".toList, ' ', [], by decide, by decide, by decide, by decide,
      by decide, by decide⟩)
    (by decide)
    (by decide)
    (fun t ht => absurd (ht.subset (List.mem_cons_self _ _)) (by decide))
  obtain ⟨h1, h2, _, _, _⟩ := h
  exact ⟨congrArg String.mk h1, congrArg String.mk h2⟩

end UnitTestGen
